import Mathlib

/-!
Verification development for the JSON-to-archive transcoder of
`src/crates/simd-doc/src/ffi/simd-doc.hpp` (the canonical, latest iteration
of the design; the other files in the repository are superseded drafts of
the same component, per the specification's own scoping).

The shallow embedding below mirrors the C++ source closely:
* 64-bit machine words (`pword`) are `Nat` values below `2^64`, composed of
  a low and a high `u32` half (`mkWord`, `wLo`, `wHi`); every spot where the
  C++ truncates to `uint32_t` is an explicit `% 2^32`.
* the output buffer `pbuffer` is a byte list (`data`, whose length is the
  C++ `len` field) plus the capacity and the length last recorded to the Rust
  side through the grow hook (`ffi->set_len`).
* the simdjson tokenizer is an external component (explicitly out of scope
  of the repository); the DOM elements it yields are the inductive `Elem`,
  and a parsed document stream is a list of `DocToken` (root element plus
  the tokenizer's `current_index()` at that document's end) together with
  the stream's `truncated_bytes()` count.  Floats are carried as their
  64-bit bit pattern, since `w2` stores exactly those bits.
-/

/-- Low 32 bits of a 64-bit word (the `u32.l` member of the C++ `pword` union). -/
def wLo (w : Nat) : Nat := w % 2 ^ 32

/-- High 32 bits of a 64-bit word (the `u32.h` member of the C++ `pword` union). -/
def wHi (w : Nat) : Nat := w / 2 ^ 32 % 2 ^ 32

/-- Build a 64-bit word from its low and high 32-bit halves. -/
def mkWord (l h : Nat) : Nat := l % 2 ^ 32 + 2 ^ 32 * (h % 2 ^ 32)

/-- Bitwise complement of a `uint64_t` value (C++ `~` on 64 bits). -/
def not64 (n : Nat) : Nat := 2 ^ 64 - 1 - n % 2 ^ 64

/-- Bitwise complement of a `uint32_t` value (C++ `~` on 32 bits). -/
def not32 (n : Nat) : Nat := 2 ^ 32 - 1 - n % 2 ^ 32

/-- Wrapping `uint32_t` subtraction: `(a - b) mod 2^32`. -/
def u32sub (a b : Nat) : Nat := (a % 2 ^ 32 + (2 ^ 32 - b % 2 ^ 32)) % 2 ^ 32

/-- Little-endian byte composition: the number whose base-256 digits, low
digit first, are the given bytes (each taken mod 256, as a `memcpy` of raw
bytes would). -/
def leWord : List Nat → Nat
  | [] => 0
  | b :: t => b % 256 + 256 * leWord t

/-- The eight little-endian bytes of a 64-bit word, as laid out in the
archive buffer. -/
def wordBytes (w : Nat) : List Nat :=
  [w % 256, w / 2 ^ 8 % 256, w / 2 ^ 16 % 256, w / 2 ^ 24 % 256,
   w / 2 ^ 32 % 256, w / 2 ^ 40 % 256, w / 2 ^ 48 % 256, w / 2 ^ 56 % 256]

/-- Strict lexicographic byte order, exactly `std::string_view::operator<`:
compare byte by byte, a proper prefix is smaller. -/
def lexLt : List Nat → List Nat → Bool
  | [], [] => false
  | [], _ :: _ => true
  | _ :: _, [] => false
  | a :: as, b :: bs => a < b || (a == b && lexLt as bs)

/-- Reflexive lexicographic byte order (`std::string_view::operator<=`). -/
def lexLe (a b : List Nat) : Bool := !lexLt b a

/-- Number of binary digits of a value below `2^64` (so `bits64 v = k+1`
exactly when `2^k ≤ v < 2^(k+1)`; `bits64 0 = 0`). -/
def bits64 (v : Nat) : Nat := ((Finset.range 64).filter (fun i => 2 ^ i ≤ v)).card

/-- C++ `std::countl_zero` on a `uint64_t`: 64 minus the bit length. -/
def countl_zero64 (v : Nat) : Nat := 64 - bits64 v

/-- Transcription of `is_indirect_str` (simd-doc.hpp:91): the first byte of
an indirect descriptor has the bit pattern `10xxxxxx`, i.e. its bits 6..7
(`w & 0b11000000` in the source) equal `0b10`. -/
def is_indirect_str (w : Nat) : Bool := w / 64 % 4 == 2

/-- Transcription of `encode_indirect_str_length` (simd-doc.hpp:99).
Precondition in the source: `len ≤ 0x3FFFFFFF`.  The low 6 bits remain
as-is (`len % 64`), bits 6..7 are set to `0b10` (adding `0b10000000`), and
the remaining bits are shifted up by 2 (`256 * (len / 64)`). -/
def encode_indirect_str_length (len : Nat) : Nat :=
  len % 64 + 0b10000000 + 256 * (len / 64 % 2 ^ 24)

/-- Transcription of `decode_indirect_str_length` (simd-doc.hpp:111): mask
off the high 2 bits of the first byte (`w % 64`) and shift the remaining
bits (`w & 0xFFFFFF00`, i.e. `w / 256` of a `uint32_t`) down by 2. -/
def decode_indirect_str_length (w : Nat) : Nat :=
  w % 64 + 64 * (w % 2 ^ 32 / 256)

/-- Transcription of `decode_inline_str_length` (simd-doc.hpp:120): inline
strings are padded with trailing `0xFF` bytes, so the length is 8 minus the
count of leading `0xFF` bytes of the (little-endian) word, computed as
`8 - countl_zero(~value) / 8`. -/
def decode_inline_str_length (value : Nat) : Nat :=
  8 - countl_zero64 (not64 value) / 8

/-- Inline string descriptor word: the string's bytes written low-to-high,
the remainder padded with `0xFF` (`property.u64 = 0xFFFF...; memcpy(...)`
in `transcode_object`, and the analogous code in `transcode_node`). -/
def inlineWord (s : List Nat) : Nat := leWord (s ++ List.replicate (8 - s.length) 255)

/-- An archived node: two 64-bit words, 16 bytes (`pnode` in the source). -/
structure pnode where
  w1 : Nat
  w2 : Nat
deriving Repr, DecidableEq

/-- An archived object field: a property word plus a node, 24 bytes
(`pfield` in the source). -/
structure pfield where
  property : Nat
  node : pnode
deriving Repr, DecidableEq

/-- The 16 little-endian bytes of a `pnode`. -/
def pnodeBytes (n : pnode) : List Nat := wordBytes n.w1 ++ wordBytes n.w2

/-- The 24 little-endian bytes of a `pfield`. -/
def pfieldBytes (f : pfield) : List Nat := wordBytes f.property ++ pnodeBytes f.node

/-- Byte image of a packed array of nodes (`buf.extend(d, len)` with
`T = pnode`). -/
def nodesBytes : List pnode → List Nat
  | [] => []
  | n :: t => pnodeBytes n ++ nodesBytes t

/-- Byte image of a packed array of fields (`buf.extend(d, len)` with
`T = pfield`). -/
def fieldsBytes : List pfield → List Nat
  | [] => []
  | f :: t => pfieldBytes f ++ fieldsBytes t

/-- The output buffer (`pbuffer` in the source).  `data` holds the bytes
written so far, so `data.length` is the C++ `len` field.  `cap` is the
capacity and `ffiLen` the length last recorded to the backing Rust vector:
`extend` calls `ffi->set_len(len)` only when it must grow, and
`Parser::transcode` calls `output.set_len` once at the end, so after an
exception `ffiLen` is whatever the last grow recorded.  `reserve` is
modelled as guaranteeing exactly the requested capacity (Rust's
`Vec::reserve(additional)` guarantees at least `len + additional`). -/
structure PBuffer where
  data : List Nat
  ffiLen : Nat
  cap : Nat
deriving Repr, DecidableEq

/-- Transcription of `pbuffer::extend` (simd-doc.hpp:67): append raw bytes,
growing (and recording the pre-extend length through `ffi->set_len`) when
the capacity would be exceeded. -/
def PBuffer.extend (b : PBuffer) (bs : List Nat) : PBuffer :=
  if b.cap < b.data.length + bs.length then
    { data := b.data ++ bs, ffiLen := b.data.length, cap := b.data.length + bs.length }
  else
    { b with data := b.data ++ bs }

/-- Transcription of `pbuffer::pad` (simd-doc.hpp:84): append `(8 - len % 8) % 8`
zero bytes so the length becomes 8-byte aligned. -/
def PBuffer.pad (b : PBuffer) : PBuffer :=
  b.extend (List.replicate ((8 - b.data.length % 8) % 8) 0)

/-- Transcription of `pstr_resolve` (simd-doc.hpp:130): if the first
descriptor word is indirect, switch the position word from a negative
absolute location (`~P`) to a negative relative offset (`~p2 - offset`,
in wrapping `uint32_t` arithmetic). -/
def pstr_resolve (p1 p2 offset : Nat) : Nat :=
  if is_indirect_str p1 then u32sub (not32 p2) offset else p2

/-- Transcription of `pnode_resolve` (simd-doc.hpp:140): rewrite the inner
offsets of a node placed at `offset`.  Arrays and objects hold their child
region pointer in `w2.lo` (resolved against `offset + 8`); strings resolve
through `pstr_resolve` against `offset + 4`. -/
def pnode_resolve (n : pnode) (offset : Nat) : pnode :=
  if n.w1 % 256 = 0x00 ∨ n.w1 % 256 = 0x06 then
    ⟨n.w1, mkWord (u32sub (wLo n.w2) (offset + 8)) (wHi n.w2)⟩
  else if n.w1 % 256 = 0x08 then
    ⟨n.w1, mkWord (pstr_resolve (wHi n.w1) (wLo n.w2) (offset + 4)) (wHi n.w2)⟩
  else n

/-- The resolution loop of `place_array`: resolve the i-th node against
`offset + i * sizeof(pnode)`. -/
def resolveNodes (offset : Nat) : List pnode → List pnode
  | [] => []
  | n :: t => pnode_resolve n offset :: resolveNodes (offset + 16) t

/-- The resolution loop of `place_object`: resolve the i-th field's
property against `offset + i * sizeof(pfield)` and its node against
`offset + i * sizeof(pfield) + 8`. -/
def resolveFields (offset : Nat) : List pfield → List pfield
  | [] => []
  | f :: t =>
    ⟨mkWord (wLo f.property) (pstr_resolve (wLo f.property) (wHi f.property) offset),
     pnode_resolve f.node (offset + 8)⟩ :: resolveFields (offset + 24) t

/-- Transcription of `place_array` (simd-doc.hpp:162): pad to 8 bytes,
resolve the child nodes against their placement offsets, append them, and
return the parent array node (tag `0x00`, tape length in `w1.hi`, placement
offset in `w2.lo`, child count in `w2.hi`). -/
def place_array (buf : PBuffer) (d : List pnode) (tape_length : Nat) : PBuffer × pnode :=
  let buf := buf.pad
  let offset := buf.data.length
  let buf := buf.extend (nodesBytes (resolveNodes offset d))
  (buf, ⟨mkWord 0x00 tape_length, mkWord offset d.length⟩)

/-- Transcription of `place_object` (simd-doc.hpp:180): like `place_array`
but over 24-byte fields, returning the parent object node (tag `0x06`). -/
def place_object (buf : PBuffer) (d : List pfield) (tape_length : Nat) : PBuffer × pnode :=
  let buf := buf.pad
  let offset := buf.data.length
  let buf := buf.extend (fieldsBytes (resolveFields offset d))
  (buf, ⟨mkWord 0x06 tape_length, mkWord offset d.length⟩)

/-- The comparator's borrowed key view in `sort_pfields` (simd-doc.hpp:239):
an indirect property reads `decode_indirect_str_length(w.lo)` bytes of the
archive at position `~w.hi`; an inline property reads the word's own first
`decode_inline_str_length(w)` bytes. -/
def fieldView (bufData : List Nat) (w : Nat) : List Nat :=
  if is_indirect_str (wLo w) then
    (bufData.drop (not32 (wHi w))).take (decode_indirect_str_length (wLo w))
  else
    (wordBytes w).take (decode_inline_str_length w)

/-- The comparator passed to `std::sort` in `sort_pfields`:
`view(lhs.property) < view(rhs.property)`. -/
def fieldLt (bufData : List Nat) (a b : pfield) : Bool :=
  lexLt (fieldView bufData a.property) (fieldView bufData b.property)

/-- Insert a field into an already sorted list, after every entry it does
not strictly precede. -/
def insertField (bufData : List Nat) (f : pfield) : List pfield → List pfield
  | [] => [f]
  | g :: rest =>
    if fieldLt bufData f g then f :: g :: rest else g :: insertField bufData f rest

/-- Deterministic model of `sort_pfields` (simd-doc.hpp:237): a comparison
sort by the comparator `fieldLt`.  `std::sort` guarantees only some sorted
permutation (its order on tie keys is unspecified — see the sort contract
`SortSpec` below); this model picks the stable insertion sort. -/
def sortFields (buf : PBuffer) (fs : List pfield) : List pfield :=
  fs.foldl (fun acc f => insertField buf.data f acc) []

/-- Errors raised by `Parser::transcode` (each a `std::out_of_range` throw
in the source).  Tokenizer errors arise inside the external simdjson
component and are outside the model. -/
inductive TErr where
  | compositeTooLarge
  | missingNewline
  | trailingGarbage
deriving Repr, DecidableEq

/-- DOM elements yielded by the (external) simdjson tokenizer: the eight
element types of `transcode_node`'s switch.  Strings and object keys are
byte lists; floats are carried as their 64-bit IEEE bit pattern (the
archive stores exactly those bits in `w2`). -/
inductive Elem where
  | arr (items : List Elem)
  | obj (fields : List (List Nat × Elem))
  | i64 (v : Int)
  | u64 (v : Nat)
  | f64 (bits : Nat)
  | str (s : List Nat)
  | bool (b : Bool)
  | null
deriving Repr

/-- Inline string node built by `transcode_node`'s STRING case
(simd-doc.hpp:363): `w1 = (0x08, 0xFFFFFFFF)`, `w2 = (0xFFFFFFFF, 0)`,
then the string's bytes are copied in starting at `w1.hi` — so bytes 4..11
of the node hold the inline word and `w2.hi` stays 0. -/
def inline_str_node (s : List Nat) : pnode :=
  ⟨mkWord 0x08 (inlineWord s % 2 ^ 32), mkWord (inlineWord s / 2 ^ 32) 0⟩

/-- Indirect string node built by `transcode_node`'s STRING case
(simd-doc.hpp:374): `w1 = (0x08, encoded length)`,
`w2 = (~buf.len as u32, 0)`, the raw bytes being appended right after. -/
def indirect_str_node (pos len : Nat) : pnode :=
  ⟨mkWord 0x08 (encode_indirect_str_length len), mkWord (not64 pos) 0⟩

mutual

/-- Transcription of `transcode_node` (simd-doc.hpp:325), with the bodies
of `transcode_array` (simd-doc.hpp:203) and `transcode_object`
(simd-doc.hpp:259) inlined into the ARRAY and OBJECT cases (in the source
they are separate functions called from this switch).  Returns the updated
buffer, the node, and the `built_length` of the subtree; a throw is an
`Except.error` carrying the buffer state at the throw. -/
def transcode_node (buf : PBuffer) (e : Elem) :
    Except (TErr × PBuffer) (PBuffer × pnode × Nat) :=
  match e with
  | .arr items =>
    if 0xffffff ≤ items.length then .error (.compositeTooLarge, buf)
    else
      match transcode_items buf items with
      | .error er => .error er
      | .ok (buf2, nodes, childSum) =>
        let r := place_array buf2 nodes (1 + childSum)
        .ok (r.1, r.2, 1 + childSum)
  | .obj fields =>
    if 0xffffff ≤ fields.length then .error (.compositeTooLarge, buf)
    else
      match transcode_fields buf [] 0 fields with
      | .error er => .error er
      | .ok (buf2, fs, uns, childSum) =>
        let fs2 := if uns ≠ 0 then sortFields buf2 fs else fs
        let r := place_object buf2 fs2 (1 + childSum)
        .ok (r.1, r.2, 1 + childSum)
  | .i64 v =>
    if v < 0 then .ok (buf, ⟨0x04, (2 ^ 64 + v).toNat % 2 ^ 64⟩, 1)
    else .ok (buf, ⟨0x07, v.toNat % 2 ^ 64⟩, 1)
  | .u64 v => .ok (buf, ⟨0x07, v % 2 ^ 64⟩, 1)
  | .f64 bits => .ok (buf, ⟨0x03, bits % 2 ^ 64⟩, 1)
  | .str s =>
    if s.length < 9 then .ok (buf, inline_str_node s, 1)
    else .ok (buf.extend s, indirect_str_node buf.data.length s.length, 1)
  | .bool b => .ok (buf, ⟨if b then 0x101 else 0x01, 0⟩, 1)
  | .null => .ok (buf, ⟨0x05, 0⟩, 1)

/-- The child loop of `transcode_array`: transcode each item in order,
collecting the child nodes (the scratch buffer) and the sum of the child
`built_length`s. -/
def transcode_items (buf : PBuffer) (items : List Elem) :
    Except (TErr × PBuffer) (PBuffer × List pnode × Nat) :=
  match items with
  | [] => .ok (buf, [], 0)
  | e :: rest =>
    match transcode_node buf e with
    | .error er => .error er
    | .ok (buf2, n, t) =>
      match transcode_items buf2 rest with
      | .error er => .error er
      | .ok (buf3, ns, ts) => .ok (buf3, n :: ns, t + ts)

/-- The field loop of `transcode_object`: for each field, count it as
unsorted when its key compares `<=` the previous key, write the key's
property word (inline for fewer than 9 bytes, otherwise indirect with the
raw key bytes appended to the buffer), then transcode the value.  Returns
the final buffer, the field list, the `unsorted` count, and the sum of the
value `built_length`s. -/
def transcode_fields (buf : PBuffer) (lastKey : List Nat) (unsorted : Nat)
    (fields : List (List Nat × Elem)) :
    Except (TErr × PBuffer) (PBuffer × List pfield × Nat × Nat) :=
  match fields with
  | [] => .ok (buf, [], unsorted, 0)
  | (key, v) :: rest =>
    let unsorted2 := unsorted + (if lexLe key lastKey then 1 else 0)
    let bp : PBuffer × Nat :=
      if key.length < 9 then (buf, inlineWord key)
      else (buf.extend key,
            mkWord (encode_indirect_str_length key.length) (not64 buf.data.length))
    match transcode_node bp.1 v with
    | .error er => .error er
    | .ok (buf3, n, t) =>
      match transcode_fields buf3 key unsorted2 rest with
      | .error er => .error er
      | .ok (buf4, fs, uns, ts) => .ok (buf4, ⟨bp.2, n⟩ :: fs, uns, t + ts)

end

/-- One document of the tokenizer's stream: the root element and the value
of `it.current_index()` once the iterator has stepped past the document. -/
structure DocToken where
  elem : Elem
  endIndex : Nat

/-- The per-document body of `Parser::transcode`'s loop (simd-doc.hpp:544):
write an 8-byte header placeholder, transcode the root, wrap it with
`place_array(&root, 1, 0)`, verify the byte before `current_index()` is a
newline, and rewrite the header with `(current_index, body length)`.
Errors carry the length the Rust side last recorded (`ffiLen`), which is
what the caller observes after the exception propagates. -/
def runDoc (input : List Nat) (buf : PBuffer) (d : DocToken) :
    Except (TErr × Nat) PBuffer :=
  let buf := buf.extend (wordBytes (mkWord 0 0))
  let start := buf.data.length
  match transcode_node buf d.elem with
  | .error (e, b) => .error (e, b.ffiLen)
  | .ok (buf, root, _) =>
    let buf := (place_array buf [root] 0).1
    if input.getD (d.endIndex - 1) 0 ≠ 10 then .error (.missingNewline, buf.ffiLen)
    else
      let header := mkWord d.endIndex (buf.data.length - start)
      .ok { buf with
            data := (buf.data.take (start - 8)) ++ wordBytes header
                    ++ buf.data.drop start }

/-- The document loop of `Parser::transcode`. -/
def runDocs (input : List Nat) (buf : PBuffer) : List DocToken → Except (TErr × Nat) PBuffer
  | [] => .ok buf
  | d :: rest =>
    match runDoc input buf d with
    | .error e => .error e
    | .ok buf2 => runDocs input buf2 rest

/-- Transcription of `Parser::transcode` (simd-doc.hpp:531) over an
already tokenized stream: run the document loop, record the final length
(`output.set_len(buf.len)`), then raise `TrailingGarbage` when the stream
reported truncated bytes and the input is non-empty.  The `Nat` carried by
an error is the length the caller's vector has recorded when the exception
propagates. -/
def transcode (input : List Nat) (docs : List DocToken) (truncated : Nat)
    (out0 : PBuffer) : Except (TErr × Nat) PBuffer :=
  match runDocs input out0 docs with
  | .error e => .error e
  | .ok buf =>
    let buf := { buf with ffiLen := buf.data.length }
    if truncated ≠ 0 ∧ input.length ≠ 0 then .error (.trailingGarbage, buf.ffiLen)
    else .ok buf

/-- Output bytes of a transcode result (the empty list for an error). -/
def resultData : Except (TErr × Nat) PBuffer → List Nat
  | .ok b => b.data
  | .error _ => []

/-- An empty output buffer handed to `transcode`. -/
def empty0 : PBuffer := ⟨[], 0, 0⟩

/-! ## Little-endian words and inline string length decoding -/

theorem leWord_lt (bs : List Nat) : leWord bs < 256 ^ bs.length := by
  induction bs with
  | nil => simp [leWord]
  | cons b t ih =>
    simp only [leWord, List.length_cons, pow_succ]
    have : b % 256 < 256 := Nat.mod_lt _ (by norm_num)
    omega

theorem leWord_append (xs ys : List Nat) :
    leWord (xs ++ ys) = leWord xs + 256 ^ xs.length * leWord ys := by
  induction xs with
  | nil => simp [leWord]
  | cons b t ih =>
    show b % 256 + 256 * leWord (t ++ ys)
        = b % 256 + 256 * leWord t + 256 ^ (t.length + 1) * leWord ys
    rw [ih]; ring

theorem leWord_replicate255 (n : Nat) : leWord (List.replicate n 255) = 256 ^ n - 1 := by
  induction n with
  | zero => simp [leWord]
  | succ k ih =>
    have : (1 : Nat) ≤ 256 ^ k := Nat.one_le_pow _ _ (by norm_num)
    simp only [List.replicate_succ, leWord, ih, pow_succ]
    omega

theorem leWord_replicate0 (n : Nat) : leWord (List.replicate n 0) = 0 := by
  induction n with
  | zero => simp [leWord]
  | succ k ih => simp [List.replicate_succ, leWord, ih]

theorem leWord_add_compl (bs : List Nat) :
    leWord bs + leWord (bs.map (fun b => 255 - b % 256)) = 256 ^ bs.length - 1 := by
  induction bs with
  | nil => simp [leWord]
  | cons b t ih =>
    have hb : b % 256 < 256 := Nat.mod_lt _ (by norm_num)
    have h2 : (255 - b % 256) % 256 = 255 - b % 256 := Nat.mod_eq_of_lt (by omega)
    have : (1 : Nat) ≤ 256 ^ t.length := Nat.one_le_pow _ _ (by norm_num)
    simp only [List.map_cons, leWord, List.length_cons, pow_succ, h2]
    omega

theorem bits64_le {v k : Nat} (h : v < 2 ^ k) : bits64 v ≤ k := by
  have : (Finset.range 64).filter (fun i => 2 ^ i ≤ v) ⊆ Finset.range k := by
    intro i hi
    simp only [Finset.mem_filter, Finset.mem_range] at hi ⊢
    have : 2 ^ i < 2 ^ k := lt_of_le_of_lt hi.2 h
    exact (Nat.pow_lt_pow_iff_right (by norm_num)).mp this
  calc bits64 v ≤ (Finset.range k).card := Finset.card_le_card this
    _ = k := Finset.card_range k

theorem bits64_ge {v k : Nat} (h : 2 ^ k ≤ v) (hk : k < 64) : k + 1 ≤ bits64 v := by
  have : Finset.range (k + 1) ⊆ (Finset.range 64).filter (fun i => 2 ^ i ≤ v) := by
    intro i hi
    simp only [Finset.mem_range] at hi
    simp only [Finset.mem_filter, Finset.mem_range]
    exact ⟨by omega, le_trans (Nat.pow_le_pow_right (by norm_num) (by omega)) h⟩
  calc k + 1 = (Finset.range (k + 1)).card := (Finset.card_range _).symm
    _ ≤ _ := Finset.card_le_card this

theorem inlineWord_lt (s : List Nat) (h : s.length ≤ 8) : inlineWord s < 2 ^ 64 := by
  have := leWord_lt (s ++ List.replicate (8 - s.length) 255)
  have hl : (s ++ List.replicate (8 - s.length) 255).length = 8 := by
    simp [List.length_append, List.length_replicate]; omega
  rw [hl] at this
  simpa [inlineWord] using this

/-- Core round-trip fact behind claims C4 and C10: decoding the inline word
of a string of at most 8 bytes none of which is `0xFF` recovers its length. -/
theorem decode_inline_inlineWord (s : List Nat) (h8 : s.length ≤ 8)
    (hb : ∀ b ∈ s, b < 255) :
    decode_inline_str_length (inlineWord s) = s.length := by
  rcases List.eq_nil_or_concat s with rfl | ⟨t, c, rfl⟩
  · have h1 : inlineWord [] = 2 ^ 64 - 1 := by
      simp only [inlineWord, List.length_nil, Nat.sub_zero, List.nil_append,
        leWord_replicate255]
      norm_num
    have h2 : not64 (2 ^ 64 - 1) = 0 := by rw [not64]; omega
    have h3 : bits64 0 = 0 := by
      rw [bits64]
      apply Finset.card_eq_zero.mpr
      apply Finset.filter_false_of_mem
      intro i _
      exact Nat.not_le.mpr (pow_pos (by norm_num) i)
    rw [decode_inline_str_length, h1, h2, countl_zero64, h3]
    simp
  · rw [List.concat_eq_append] at h8 hb ⊢
    have hc : c < 255 := hb c (by simp)
    have hn8 : t.length + 1 ≤ 8 := by simpa using h8
    have hn7 : t.length ≤ 7 := by omega
    have hrep : 8 - (t ++ [c]).length = 7 - t.length := by simp
    have hlen8 : ((t ++ [c]) ++ List.replicate (7 - t.length) 255).length = 8 := by
      simp; omega
    have hword : inlineWord (t ++ [c])
        = leWord ((t ++ [c]) ++ List.replicate (7 - t.length) 255) := by
      rw [inlineWord, hrep]
    have hwlt : leWord ((t ++ [c]) ++ List.replicate (7 - t.length) 255) < 2 ^ 64 := by
      have h := leWord_lt ((t ++ [c]) ++ List.replicate (7 - t.length) 255)
      rw [hlen8] at h
      exact lt_of_lt_of_le h (by norm_num)
    have hcompl := leWord_add_compl ((t ++ [c]) ++ List.replicate (7 - t.length) 255)
    rw [hlen8] at hcompl
    have hnot : not64 (inlineWord (t ++ [c]))
        = leWord (((t ++ [c]) ++ List.replicate (7 - t.length) 255).map
            (fun b => 255 - b % 256)) := by
      rw [hword, not64, Nat.mod_eq_of_lt hwlt]
      norm_num at hcompl ⊢
      omega
    have hcmod : c % 256 = c := Nat.mod_eq_of_lt (by omega)
    have hmap : ((t ++ [c]) ++ List.replicate (7 - t.length) 255).map
          (fun b => 255 - b % 256)
        = (t.map (fun b => 255 - b % 256) ++ [255 - c]) ++ List.replicate (7 - t.length) 0 := by
      simp [List.map_append, List.map_replicate, hcmod]
    have h255 : leWord [255 - c] = 255 - c := by
      simp [leWord, Nat.mod_eq_of_lt (show 255 - c < 256 by omega)]
    have hv : leWord (((t ++ [c]) ++ List.replicate (7 - t.length) 255).map
          (fun b => 255 - b % 256))
        = leWord (t.map (fun b => 255 - b % 256)) + 256 ^ t.length * (255 - c) := by
      rw [hmap, leWord_append, leWord_append, leWord_replicate0, List.length_map, h255]
      ring
    have hpow : (256 : Nat) ^ t.length = 2 ^ (8 * t.length) := by
      rw [show (256 : Nat) = 2 ^ 8 by norm_num, ← pow_mul]
    have hlow : 2 ^ (8 * t.length)
        ≤ leWord (((t ++ [c]) ++ List.replicate (7 - t.length) 255).map
            (fun b => 255 - b % 256)) := by
      rw [hv, ← hpow]
      have : 256 ^ t.length * 1 ≤ 256 ^ t.length * (255 - c) :=
        Nat.mul_le_mul_left _ (by omega)
      omega
    have hhigh : leWord (((t ++ [c]) ++ List.replicate (7 - t.length) 255).map
          (fun b => 255 - b % 256)) < 2 ^ (8 * t.length + 8) := by
      rw [hv]
      have h1 : leWord (t.map (fun b => 255 - b % 256)) < 256 ^ t.length := by
        have := leWord_lt (t.map (fun b => 255 - b % 256))
        rwa [List.length_map] at this
      have h2 : 256 ^ t.length * (255 - c) ≤ 256 ^ t.length * 255 :=
        Nat.mul_le_mul_left _ (by omega)
      have h3 : (256 : Nat) ^ t.length + 256 ^ t.length * 255 = 2 ^ (8 * t.length + 8) := by
        have e1 : (256 : Nat) ^ t.length + 256 ^ t.length * 255 = 256 ^ (t.length + 1) := by
          ring
        rw [e1, show (256 : Nat) = 2 ^ 8 by norm_num, ← pow_mul, Nat.mul_succ]
      omega
    have hb1 : 8 * t.length + 1
        ≤ bits64 (leWord (((t ++ [c]) ++ List.replicate (7 - t.length) 255).map
            (fun b => 255 - b % 256))) :=
      bits64_ge hlow (by omega)
    have hb2 : bits64 (leWord (((t ++ [c]) ++ List.replicate (7 - t.length) 255).map
          (fun b => 255 - b % 256))) ≤ 8 * t.length + 8 :=
      bits64_le hhigh
    rw [decode_inline_str_length, hnot, countl_zero64]
    simp only [List.length_append, List.length_cons, List.length_nil]
    omega

/-! ## Claims C10 and C4: inline string length recovery -/

/-- C10: for every byte string `s` with `0 ≤ len(s) ≤ 8` containing no
`0xFF` byte (every valid UTF-8 string qualifies, as bytes are below 256 and
`0xFF` never occurs), initializing a 64-bit word to all-`0xFF` bytes and
copying `s` into its lowest `len(s)` bytes (`inlineWord`), then applying
`decode_inline_str_length`, returns exactly `len(s)`; the all-`0xFF` word
(the case `s = []`) decodes to length 0. -/
theorem c10_inline_roundtrip (s : List Nat) (h8 : s.length ≤ 8)
    (hff : ∀ b ∈ s, b < 255) :
    decode_inline_str_length (inlineWord s) = s.length :=
  decode_inline_inlineWord s h8 hff

/-- Witness for C10 at the concrete inputs `[]` (the all-`0xFF` word) —
whose inline word decodes to length 0. -/
theorem c10_witness : decode_inline_str_length (inlineWord []) = List.length ([] : List Nat) :=
  c10_inline_roundtrip [] (by decide) (by decide)

/-- Inline string descriptor word of a string node: the 8 data bytes the
STRING case of `transcode_node` fills are bytes 4..11 of the node, i.e.
`w1.hi` plus `2^32` times `w2.lo`. -/
def inlineDescriptor (n : pnode) : Nat := wHi n.w1 + 2 ^ 32 * wLo n.w2

/-- Count of the leading one bits of a 64-bit value
(`countl_one(v) = countl_zero(~v)`). -/
def count_leading_ones64 (v : Nat) : Nat := countl_zero64 (not64 v)

/-- Modelled from the spec: claim C4's recovery formula exactly as written,
`len = 8 − (count_leading_ones_of(~word) / 8)` — the leading-ones count
applied to the complemented word (the source instead takes the
leading-zeros count of the complemented word). -/
def spec_inline_len_formula (w : Nat) : Nat :=
  8 - count_leading_ones64 (not64 w) / 8

theorem inlineDescriptor_inline_str_node (s : List Nat) (h8 : s.length ≤ 8) :
    inlineDescriptor (inline_str_node s) = inlineWord s := by
  have hlt := inlineWord_lt s h8
  simp only [inlineDescriptor, inline_str_node, mkWord, wHi, wLo]
  omega

/-- C4 counterexample: the inline descriptor word the transcoder produces
for the 2-byte string `hi` is decoded correctly by the source's
`decode_inline_str_length`, but the claim's formula
`8 − (count_leading_ones_of(~word) / 8)` yields 8, not the original
length 2. -/
theorem c4_counterexample :
    transcode_node empty0 (.str [104, 105]) = .ok (empty0, inline_str_node [104, 105], 1) ∧
    decode_inline_str_length (inlineDescriptor (inline_str_node [104, 105])) = 2 ∧
    spec_inline_len_formula (inlineDescriptor (inline_str_node [104, 105]))
      ≠ [104, 105].length := by
  refine ⟨rfl, by decide, by decide⟩

/-- C4 (amended): for every inline string descriptor word produced by the
transcoder (string bytes written low-to-high, remainder padded with `0xFF`),
the original string length is recovered by
`len = 8 − (count_leading_zeros_of(~word) / 8)` — the source's
`decode_inline_str_length` — not by the leading-ones count of `~word`. -/
theorem c4_amended (buf : PBuffer) (s : List Nat) (h9 : s.length < 9)
    (hff : ∀ b ∈ s, b < 255) :
    transcode_node buf (.str s) = .ok (buf, inline_str_node s, 1) ∧
    decode_inline_str_length (inlineDescriptor (inline_str_node s)) = s.length := by
  refine ⟨by simp [transcode_node, h9], ?_⟩
  rw [inlineDescriptor_inline_str_node s (by omega)]
  exact decode_inline_inlineWord s (by omega) hff

/-- Witness for C4 at the concrete 1-byte string `h`. -/
theorem c4_witness :
    transcode_node empty0 (.str [104]) = .ok (empty0, inline_str_node [104], 1) ∧
    decode_inline_str_length (inlineDescriptor (inline_str_node [104])) = [104].length :=
  c4_amended empty0 [104] (by decide) (by decide)

/-! ## Claim C3: the concrete `"hi"` document -/

/-- C3 counterexample: transcoding the tokenized document `"hi"` followed
by a newline (5 input bytes, root string element, `current_index` 5) does
not produce the body claimed by the specification — the claimed record has
`0xFF` in bytes 12..15, where the transcoder writes `w2.hi = 0`. -/
theorem c3_counterexample :
    resultData (transcode [34, 104, 105, 34, 10] [⟨.str [104, 105], 5⟩] 0 empty0)
      ≠ [5, 0, 0, 0, 16, 0, 0, 0,
         8, 0, 0, 0, 104, 105, 255, 255, 255, 255, 255, 255, 255, 255, 255, 255] := by
  decide

/-- C3 (amended): transcoding the 5-byte input `"hi"` plus newline produces
exactly one record: header word `(end_input_offset = 5, body_length = 16)`
and the 16-byte body `08 00 00 00 68 69 FF FF FF FF FF FF 00 00 00 00` —
tag `0x08`, data `hi`, six bytes of `0xFF` padding (bytes 4..11 hold the
inline data), and four zero bytes, since the node's `w2.hi` is 0. -/
theorem c3_amended :
    resultData (transcode [34, 104, 105, 34, 10] [⟨.str [104, 105], 5⟩] 0 empty0)
      = [5, 0, 0, 0, 16, 0, 0, 0,
         8, 0, 0, 0, 104, 105, 255, 255, 255, 255, 255, 255, 0, 0, 0, 0] := by
  decide

/-! ## Claim C5: the composite size check -/

mutual

/-- Whether some array or object inside the element meets the size check
`len >= 0xffffff` on which both `transcode_array` and `transcode_object`
throw `std::out_of_range` (simd-doc.hpp:207 and 263). -/
def hasBig : Elem → Bool
  | .arr items => decide (0xffffff ≤ items.length) || hasBigItems items
  | .obj fields => decide (0xffffff ≤ fields.length) || hasBigFields fields
  | _ => false
/-- Whether some element of the list satisfies `hasBig`. -/
def hasBigItems : List Elem → Bool
  | [] => false
  | e :: rest => hasBig e || hasBigItems rest
/-- Whether some field value of the list satisfies `hasBig`. -/
def hasBigFields : List (List Nat × Elem) → Bool
  | [] => false
  | (_, v) :: rest => hasBig v || hasBigFields rest
end

/-- Whether a transcode step raised the CompositeTooLarge throw. -/
def isCompositeErr {α : Type} : Except (TErr × PBuffer) α → Bool
  | .error (.compositeTooLarge, _) => true
  | _ => false

/-- Whether a transcode step raised any throw. -/
def isErr {α : Type} : Except (TErr × PBuffer) α → Bool
  | .error _ => true
  | .ok _ => false

/-- Master characterization of `transcode_node` errors: a throw happens
exactly when some composite meets the size check, and every throw is the
CompositeTooLarge one. -/
theorem transcode_err_iff_big (buf : PBuffer) (e : Elem) :
    isCompositeErr (transcode_node buf e) = hasBig e ∧
    isErr (transcode_node buf e) = hasBig e := by
  induction buf, e using transcode_node.induct with
  | motive_2 buf lk u fs =>
    exact isCompositeErr (transcode_fields buf lk u fs) = hasBigFields fs ∧
          isErr (transcode_fields buf lk u fs) = hasBigFields fs
  | motive_3 buf l =>
    exact isCompositeErr (transcode_items buf l) = hasBigItems l ∧
          isErr (transcode_items buf l) = hasBigItems l
  | case1 buf items hbig =>
    simp [transcode_node, hasBig, hbig, isCompositeErr, isErr]
  | case2 buf items hbig er herr ih =>
    obtain ⟨ek, eb⟩ := er
    rw [herr] at ih
    simp only [isCompositeErr, isErr] at ih
    cases ek <;>
      simp_all [transcode_node, hasBig, if_neg hbig, herr, isCompositeErr, isErr, hbig]
  | case3 buf items hbig buf2 nodes childSum hok ih =>
    rw [hok] at ih
    simp only [isCompositeErr, isErr] at ih
    simp [transcode_node, hasBig, if_neg hbig, hok, isCompositeErr, isErr, hbig, ← ih.2]
  | case4 buf fields hbig =>
    simp [transcode_node, hasBig, hbig, isCompositeErr, isErr]
  | case5 buf fields hbig er herr ih =>
    obtain ⟨ek, eb⟩ := er
    rw [herr] at ih
    simp only [isCompositeErr, isErr] at ih
    cases ek <;>
      simp_all [transcode_node, hasBig, if_neg hbig, herr, isCompositeErr, isErr, hbig]
  | case6 buf fields hbig buf2 fs uns childSum hok ih =>
    rw [hok] at ih
    simp only [isCompositeErr, isErr] at ih
    simp [transcode_node, hasBig, if_neg hbig, hok, isCompositeErr, isErr, hbig, ← ih.2]
  | case7 buf v hv => simp [transcode_node, hasBig, hv, isCompositeErr, isErr]
  | case8 buf v hv => simp [transcode_node, hasBig, hv, isCompositeErr, isErr]
  | case9 buf v => simp [transcode_node, hasBig, isCompositeErr, isErr]
  | case10 buf bits => simp [transcode_node, hasBig, isCompositeErr, isErr]
  | case11 buf s hs => simp [transcode_node, hasBig, hs, isCompositeErr, isErr]
  | case12 buf s hs => simp [transcode_node, hasBig, hs, isCompositeErr, isErr]
  | case13 buf b => simp [transcode_node, hasBig, isCompositeErr, isErr]
  | case14 buf => simp [transcode_node, hasBig, isCompositeErr, isErr]
  | case15 buf => simp [transcode_items, hasBigItems, isCompositeErr, isErr]
  | case16 buf e rest er herr ihe =>
    obtain ⟨ek, eb⟩ := er
    rw [herr] at ihe
    simp only [isCompositeErr, isErr] at ihe
    cases ek <;>
      simp_all [transcode_items, hasBigItems, herr, isCompositeErr, isErr]
  | case17 buf e rest buf2 n t hok er herr ihe ihrest =>
    obtain ⟨ek, eb⟩ := er
    rw [hok] at ihe
    rw [herr] at ihrest
    simp only [isCompositeErr, isErr] at ihe ihrest
    cases ek <;>
      simp_all [transcode_items, hasBigItems, hok, herr, isCompositeErr, isErr]
  | case18 buf e rest buf2 n t hok buf3 ns ts hok2 ihe ihrest =>
    rw [hok] at ihe
    rw [hok2] at ihrest
    simp only [isCompositeErr, isErr] at ihe ihrest
    simp [transcode_items, hasBigItems, hok, hok2, isCompositeErr, isErr,
      ← ihe.2, ← ihrest.2]
  | case19 buf lk u => simp [transcode_fields, hasBigFields, isCompositeErr, isErr]
  | case20 buf lk u key v rest bp er herr ihv =>
    obtain ⟨ek, eb⟩ := er
    rw [herr] at ihv
    simp only [isCompositeErr, isErr] at ihv
    cases ek <;>
      simp_all [transcode_fields, hasBigFields, herr, isCompositeErr, isErr]
  | case21 buf lk u key v rest u2 bp buf2 n t hok er herr ihv ihrest =>
    obtain ⟨ek, eb⟩ := er
    rw [hok] at ihv
    rw [herr] at ihrest
    simp only [isCompositeErr, isErr] at ihv ihrest
    cases ek <;>
      simp_all [transcode_fields, hasBigFields, hok, herr, isCompositeErr, isErr]
  | case22 buf lk u key v rest u2 bp buf2 n t hok buf3 fs uns ts hok2 ihv ihrest =>
    rw [hok] at ihv
    rw [hok2] at ihrest
    simp only [isCompositeErr, isErr] at ihv ihrest
    simp [transcode_fields, hasBigFields, hok, hok2, isCompositeErr, isErr,
      ← ihv.2, ← ihrest.2]

/-- C5 counterexample: an array with exactly `2^24 − 1` children — which
the claim says is transcoded without error — raises CompositeTooLarge,
because the source's check is `len >= 0xffffff`. -/
theorem c5_counterexample :
    isCompositeErr (transcode_node empty0 (.arr (List.replicate 0xffffff .null))) = true := by
  rw [(transcode_err_iff_big empty0 (.arr (List.replicate 0xffffff .null))).1, hasBig]
  simp only [List.length_replicate]
  norm_num

/-- C5 (amended): transcoding an element raises CompositeTooLarge exactly
when some array or object in it has at least `2^24 − 1 = 0xFFFFFF`
children; every composite with fewer than `2^24 − 1` children passes the
size check. -/
theorem c5_amended (buf : PBuffer) (e : Elem) :
    isCompositeErr (transcode_node buf e) = hasBig e :=
  (transcode_err_iff_big buf e).1

/-! ## Claim C6: the trailing-bytes check -/

/-- Whether a whole-transcode result is the TrailingGarbage throw. -/
def isTrailingErr : Except (TErr × Nat) PBuffer → Bool
  | .error (.trailingGarbage, _) => true
  | _ => false

/-- C6 counterexample: with no complete document, one unconsumed input byte
and the tokenizer reporting a truncated tail (`truncated_bytes = 1`), the
claim says no TrailingGarbage is raised — but `Parser::transcode` throws
exactly because `truncated_bytes != 0 && input.size() != 0`. -/
theorem c6_counterexample :
    transcode [49] [] 1 empty0 = .error (.trailingGarbage, 0) := rfl

/-- C6 (amended): once the document loop has processed all complete
documents without a throw, `Parser::transcode` raises TrailingGarbage
exactly when the tokenizer reports a nonzero `truncated_bytes()` count
(an incomplete trailing tail) and the input is non-empty — not when the
stream is non-truncated. -/
theorem c6_amended (input : List Nat) (docs : List DocToken) (truncated : Nat)
    (out0 : PBuffer) (b : PBuffer) (hdocs : runDocs input out0 docs = .ok b) :
    isTrailingErr (transcode input docs truncated out0)
      = (decide (truncated ≠ 0) && decide (input.length ≠ 0)) := by
  rw [transcode, hdocs]
  by_cases h1 : truncated ≠ 0 ∧ input.length ≠ 0
  · simp [isTrailingErr, h1]
  · simp only [if_neg h1, isTrailingErr]
    rcases Decidable.not_and_iff_or_not.mp h1 with h | h <;> simp [h]

/-- Witness for C6 at a concrete stream: no documents, input `1` (one byte,
no newline), truncated tail of one byte — TrailingGarbage is raised. -/
theorem c6_witness :
    isTrailingErr (transcode [49] [] 1 empty0)
      = (decide ((1 : Nat) ≠ 0) && decide (([49] : List Nat).length ≠ 0)) :=
  c6_amended [49] [] 1 empty0 empty0 rfl

/-! ## Claim C2: tape lengths -/

mutual

/-- Total number of archive nodes an element transcodes to (itself plus all
descendants). -/
def nodeCount : Elem → Nat
  | .arr items => 1 + nodeCountItems items
  | .obj fields => 1 + nodeCountFields fields
  | _ => 1

/-- Sum of `nodeCount` over a list of elements. -/
def nodeCountItems : List Elem → Nat
  | [] => 0
  | e :: rest => nodeCount e + nodeCountItems rest

/-- Sum of `nodeCount` over the values of a field list. -/
def nodeCountFields : List (List Nat × Elem) → Nat
  | [] => 0
  | (_, v) :: rest => nodeCount v + nodeCountFields rest

end

/-- The `built_length` returned by every transcode step is the node count
of the transcoded subtree, independent of the buffer state. -/
theorem transcode_tape :
    (∀ buf e, ∀ b n t, transcode_node buf e = .ok (b, n, t) → t = nodeCount e) ∧
    (∀ buf lk u fs, ∀ b out uns ts, transcode_fields buf lk u fs = .ok (b, out, uns, ts) →
        ts = nodeCountFields fs) ∧
    (∀ buf l, ∀ b ns ts, transcode_items buf l = .ok (b, ns, ts) → ts = nodeCountItems l) := by
  refine transcode_node.mutual_induct
    (fun buf e => ∀ b n t, transcode_node buf e = .ok (b, n, t) → t = nodeCount e)
    (fun buf lk u fs => ∀ b out uns ts,
        transcode_fields buf lk u fs = .ok (b, out, uns, ts) → ts = nodeCountFields fs)
    (fun buf l => ∀ b ns ts, transcode_items buf l = .ok (b, ns, ts) → ts = nodeCountItems l)
    ?_ ?_ ?_ ?_ ?_ ?_ ?_ ?_ ?_ ?_ ?_ ?_ ?_ ?_ ?_ ?_ ?_ ?_ ?_ ?_ ?_ ?_
  · intro buf items hbig b n t h
    simp [transcode_node, hbig] at h
  · intro buf items hbig er herr ih b n t h
    simp [transcode_node, hbig, herr] at h
  · intro buf items hbig buf2 nodes cs hok ih b n t h
    simp only [transcode_node, if_neg hbig, hok] at h
    obtain ⟨-, -, ht⟩ := by simpa using h
    rw [← ht, nodeCount, ih _ _ _ hok]
  · intro buf fields hbig b n t h
    simp [transcode_node, hbig] at h
  · intro buf fields hbig er herr ih b n t h
    simp [transcode_node, hbig, herr] at h
  · intro buf fields hbig buf2 fs uns cs hok ih b n t h
    simp only [transcode_node, if_neg hbig, hok] at h
    obtain ⟨-, -, ht⟩ := by simpa using h
    rw [← ht, nodeCount, ih _ _ _ _ hok]
  · intro buf v hv b n t h
    simp [transcode_node, hv] at h
    simp [nodeCount, ← h.2.2]
  · intro buf v hv b n t h
    simp [transcode_node, hv] at h
    simp [nodeCount, ← h.2.2]
  · intro buf v b n t h
    simp [transcode_node] at h
    simp [nodeCount, ← h.2.2]
  · intro buf bits b n t h
    simp [transcode_node] at h
    simp [nodeCount, ← h.2.2]
  · intro buf s hs b n t h
    simp [transcode_node, hs] at h
    simp [nodeCount, ← h.2.2]
  · intro buf s hs b n t h
    simp [transcode_node, hs] at h
    simp [nodeCount, ← h.2.2]
  · intro buf bo b n t h
    simp [transcode_node] at h
    simp [nodeCount, ← h.2.2]
  · intro buf b n t h
    simp [transcode_node] at h
    simp [nodeCount, ← h.2.2]
  · intro buf b ns ts h
    simp [transcode_items] at h
    simp [nodeCountItems, ← h.2.2]
  · intro buf e rest er herr ih b ns ts h
    simp [transcode_items, herr] at h
  · intro buf e rest buf2 n t hok er herr ihe ihrest b ns ts h
    simp [transcode_items, hok, herr] at h
  · intro buf e rest buf2 n t hok buf3 ns2 ts2 hok2 ihe ihrest b ns ts h
    simp only [transcode_items, hok, hok2] at h
    obtain ⟨-, -, ht⟩ := by simpa using h
    rw [← ht, nodeCountItems, ihe _ _ _ hok, ihrest _ _ _ hok2]
  · intro buf lk u b out uns ts h
    simp [transcode_fields] at h
    simp [nodeCountFields, ← h.2.2.2]
  · intro buf lk u key v rest bp er herr ih b out uns ts h
    simp [transcode_fields, herr] at h
  · intro buf lk u key v rest u2 bp buf2 n t hok er herr ihv ihrest b out uns ts h
    simp [transcode_fields, hok, herr] at h
  · intro buf lk u key v rest u2 bp buf2 n t hok buf3 fs uns2 ts2 hok2 ihv ihrest b out uns ts h
    simp only [transcode_fields, hok, hok2] at h
    obtain ⟨-, -, -, ht⟩ := by simpa using h
    rw [← ht, nodeCountFields, ihv _ _ _ hok, ihrest _ _ _ _ hok2]

theorem wHi_mkWord (l h : Nat) : wHi (mkWord l h) = h % 2 ^ 32 := by
  have h1 : l % 2 ^ 32 < 2 ^ 32 := Nat.mod_lt _ (by norm_num)
  have h2 : h % 2 ^ 32 < 2 ^ 32 := Nat.mod_lt _ (by norm_num)
  simp only [wHi, mkWord]
  omega

/-- C2: for every composite node (array or object) built by the transcoder,
the tape length stored in `w1.hi` equals 1 plus the sum of the tape lengths
of its immediate children (each child's returned `built_length` is its
subtree node count, `nodeCount`), which is the total node count of the
subtree including the node itself.  The stored `w1.hi` is `uint32_t`, so
the count is required to fit 32 bits. -/
theorem c2_tape_length :
    (∀ buf e b n t, transcode_node buf e = .ok (b, n, t) → t = nodeCount e) ∧
    (∀ buf b n t items, transcode_node buf (.arr items) = .ok (b, n, t) →
        1 + nodeCountItems items < 2 ^ 32 →
        wHi n.w1 = 1 + nodeCountItems items ∧ t = 1 + nodeCountItems items) ∧
    (∀ buf b n t fields, transcode_node buf (.obj fields) = .ok (b, n, t) →
        1 + nodeCountFields fields < 2 ^ 32 →
        wHi n.w1 = 1 + nodeCountFields fields ∧ t = 1 + nodeCountFields fields) := by
  refine ⟨fun buf e b n t h => transcode_tape.1 buf e b n t h, ?_, ?_⟩
  · intro buf b n t items hok hlt
    by_cases hbig : 0xffffff ≤ items.length
    · simp [transcode_node, hbig] at hok
    · cases hitems : transcode_items buf items with
      | error er => simp [transcode_node, hbig, hitems] at hok
      | ok r =>
        obtain ⟨buf2, nodes, cs⟩ := r
        have hcs : cs = nodeCountItems items := transcode_tape.2.2 _ _ _ _ _ hitems
        simp only [transcode_node, if_neg hbig, hitems] at hok
        obtain ⟨-, hn, ht⟩ := by simpa using hok
        subst hcs
        constructor
        · rw [← hn]
          simp only [place_array, wHi_mkWord]
          omega
        · omega
  · intro buf b n t fields hok hlt
    by_cases hbig : 0xffffff ≤ fields.length
    · simp [transcode_node, hbig] at hok
    · cases hfields : transcode_fields buf [] 0 fields with
      | error er => simp [transcode_node, hbig, hfields] at hok
      | ok r =>
        obtain ⟨buf2, fs, uns, cs⟩ := r
        have hcs : cs = nodeCountFields fields := transcode_tape.2.1 _ _ _ _ _ _ _ _ hfields
        simp only [transcode_node, if_neg hbig, hfields] at hok
        obtain ⟨-, hn, ht⟩ := by simpa using hok
        subst hcs
        constructor
        · rw [← hn]
          simp only [place_object, wHi_mkWord]
          omega
        · omega

/-- Witness for C2 at the concrete two-element array `[null, null]`: the
root node stores tape length 3 in `w1.hi`. -/
theorem c2_witness :
    wHi (pnode.mk 12884901888 8589934592).w1 = 1 + nodeCountItems [Elem.null, Elem.null] ∧
    3 = 1 + nodeCountItems [Elem.null, Elem.null] :=
  c2_tape_length.2.1 empty0
    ⟨[5, 0, 0, 0, 0, 0, 0, 0, 0, 0, 0, 0, 0, 0, 0, 0,
      5, 0, 0, 0, 0, 0, 0, 0, 0, 0, 0, 0, 0, 0, 0, 0], 0, 32⟩
    ⟨12884901888, 8589934592⟩ 3 [.null, .null] rfl (by decide)

/-! ## Buffer evolution facts: the output only grows, and the length
recorded through the grow hook never exceeds the buffer length nor
rewinds below its value at entry. -/

theorem extend_data (b : PBuffer) (bs : List Nat) : (b.extend bs).data = b.data ++ bs := by
  unfold PBuffer.extend
  split <;> rfl

theorem extend_ffi (b : PBuffer) (bs : List Nat) (h : b.ffiLen ≤ b.data.length) :
    (b.extend bs).ffiLen ≤ (b.extend bs).data.length ∧ b.ffiLen ≤ (b.extend bs).ffiLen := by
  unfold PBuffer.extend
  split <;> simp <;> omega

theorem pad_data (b : PBuffer) :
    (b.pad).data = b.data ++ List.replicate ((8 - b.data.length % 8) % 8) 0 := by
  unfold PBuffer.pad
  exact extend_data _ _

theorem pad_ffi (b : PBuffer) (h : b.ffiLen ≤ b.data.length) :
    (b.pad).ffiLen ≤ (b.pad).data.length ∧ b.ffiLen ≤ (b.pad).ffiLen := by
  unfold PBuffer.pad
  exact extend_ffi _ _ h

theorem place_array_data (buf : PBuffer) (d : List pnode) (tape : Nat) :
    ∃ t, (place_array buf d tape).1.data = buf.data ++ t := by
  simp only [place_array, extend_data, pad_data]
  exact ⟨_, List.append_assoc _ _ _⟩

theorem place_array_ffi (buf : PBuffer) (d : List pnode) (tape : Nat)
    (h : buf.ffiLen ≤ buf.data.length) :
    (place_array buf d tape).1.ffiLen ≤ (place_array buf d tape).1.data.length ∧
    buf.ffiLen ≤ (place_array buf d tape).1.ffiLen := by
  simp only [place_array]
  have h1 := pad_ffi buf h
  have h2 := extend_ffi buf.pad (nodesBytes (resolveNodes buf.pad.data.length d)) h1.1
  exact ⟨h2.1, le_trans h1.2 h2.2⟩

theorem place_object_data (buf : PBuffer) (d : List pfield) (tape : Nat) :
    ∃ t, (place_object buf d tape).1.data = buf.data ++ t := by
  simp only [place_object, extend_data, pad_data]
  exact ⟨_, List.append_assoc _ _ _⟩

theorem place_object_ffi (buf : PBuffer) (d : List pfield) (tape : Nat)
    (h : buf.ffiLen ≤ buf.data.length) :
    (place_object buf d tape).1.ffiLen ≤ (place_object buf d tape).1.data.length ∧
    buf.ffiLen ≤ (place_object buf d tape).1.ffiLen := by
  simp only [place_object]
  have h1 := pad_ffi buf h
  have h2 := extend_ffi buf.pad (fieldsBytes (resolveFields buf.pad.data.length d)) h1.1
  exact ⟨h2.1, le_trans h1.2 h2.2⟩

/-- Resulting buffer of a transcode step (from either outcome). -/
def stepBuf {α : Type} (buf : PBuffer) : Except (TErr × PBuffer) (PBuffer × α) → PBuffer
  | .ok (b, _) => b
  | .error (_, b) => b

/-- Master buffer-evolution lemma: every transcode step only appends to the
buffer, keeps the recorded length at most the buffer length, and never
rewinds the recorded length (also on the buffer carried by a throw). -/
theorem transcode_buffer_facts :
    (∀ buf e, (∃ t, (stepBuf buf (transcode_node buf e)).data = buf.data ++ t) ∧
      (buf.ffiLen ≤ buf.data.length →
        (stepBuf buf (transcode_node buf e)).ffiLen
            ≤ (stepBuf buf (transcode_node buf e)).data.length ∧
        buf.ffiLen ≤ (stepBuf buf (transcode_node buf e)).ffiLen)) ∧
    (∀ buf lk u fs, (∃ t, (stepBuf buf (transcode_fields buf lk u fs)).data = buf.data ++ t) ∧
      (buf.ffiLen ≤ buf.data.length →
        (stepBuf buf (transcode_fields buf lk u fs)).ffiLen
            ≤ (stepBuf buf (transcode_fields buf lk u fs)).data.length ∧
        buf.ffiLen ≤ (stepBuf buf (transcode_fields buf lk u fs)).ffiLen)) ∧
    (∀ buf l, (∃ t, (stepBuf buf (transcode_items buf l)).data = buf.data ++ t) ∧
      (buf.ffiLen ≤ buf.data.length →
        (stepBuf buf (transcode_items buf l)).ffiLen
            ≤ (stepBuf buf (transcode_items buf l)).data.length ∧
        buf.ffiLen ≤ (stepBuf buf (transcode_items buf l)).ffiLen)) := by
  refine transcode_node.mutual_induct
    (fun buf e => (∃ t, (stepBuf buf (transcode_node buf e)).data = buf.data ++ t) ∧
      (buf.ffiLen ≤ buf.data.length →
        (stepBuf buf (transcode_node buf e)).ffiLen
            ≤ (stepBuf buf (transcode_node buf e)).data.length ∧
        buf.ffiLen ≤ (stepBuf buf (transcode_node buf e)).ffiLen))
    (fun buf lk u fs => (∃ t, (stepBuf buf (transcode_fields buf lk u fs)).data = buf.data ++ t) ∧
      (buf.ffiLen ≤ buf.data.length →
        (stepBuf buf (transcode_fields buf lk u fs)).ffiLen
            ≤ (stepBuf buf (transcode_fields buf lk u fs)).data.length ∧
        buf.ffiLen ≤ (stepBuf buf (transcode_fields buf lk u fs)).ffiLen))
    (fun buf l => (∃ t, (stepBuf buf (transcode_items buf l)).data = buf.data ++ t) ∧
      (buf.ffiLen ≤ buf.data.length →
        (stepBuf buf (transcode_items buf l)).ffiLen
            ≤ (stepBuf buf (transcode_items buf l)).data.length ∧
        buf.ffiLen ≤ (stepBuf buf (transcode_items buf l)).ffiLen))
    ?_ ?_ ?_ ?_ ?_ ?_ ?_ ?_ ?_ ?_ ?_ ?_ ?_ ?_ ?_ ?_ ?_ ?_ ?_ ?_ ?_ ?_
  · intro buf items hbig
    simp [transcode_node, hbig, stepBuf]
  · intro buf items hbig er herr ih
    rw [herr] at ih
    simp only [transcode_node, if_neg hbig, herr, stepBuf] at ih ⊢
    obtain ⟨ek, eb⟩ := er
    exact ih
  · intro buf items hbig buf2 nodes cs hok ih
    rw [hok] at ih
    simp only [transcode_node, if_neg hbig, hok, stepBuf] at ih ⊢
    obtain ⟨⟨t1, ht1⟩, hm⟩ := ih
    constructor
    · obtain ⟨t2, ht2⟩ := place_array_data buf2 nodes (1 + cs)
      exact ⟨t1 ++ t2, by rw [ht2, ht1, List.append_assoc]⟩
    · intro h0
      have hm2 := hm h0
      have := place_array_ffi buf2 nodes (1 + cs) hm2.1
      exact ⟨this.1, le_trans hm2.2 this.2⟩
  · intro buf fields hbig
    simp [transcode_node, hbig, stepBuf]
  · intro buf fields hbig er herr ih
    rw [herr] at ih
    simp only [transcode_node, if_neg hbig, herr, stepBuf] at ih ⊢
    obtain ⟨ek, eb⟩ := er
    exact ih
  · intro buf fields hbig buf2 fs uns cs hok ih
    rw [hok] at ih
    simp only [transcode_node, if_neg hbig, hok, stepBuf] at ih ⊢
    obtain ⟨⟨t1, ht1⟩, hm⟩ := ih
    constructor
    · obtain ⟨t2, ht2⟩ :=
        place_object_data buf2 (if uns ≠ 0 then sortFields buf2 fs else fs) (1 + cs)
      exact ⟨t1 ++ t2, by rw [ht2, ht1, List.append_assoc]⟩
    · intro h0
      have hm2 := hm h0
      have := place_object_ffi buf2 (if uns ≠ 0 then sortFields buf2 fs else fs) (1 + cs) hm2.1
      exact ⟨this.1, le_trans hm2.2 this.2⟩
  · intro buf v hv
    simp [transcode_node, hv, stepBuf]
  · intro buf v hv
    simp [transcode_node, hv, stepBuf]
  · intro buf v
    simp [transcode_node, stepBuf]
  · intro buf bits
    simp [transcode_node, stepBuf]
  · intro buf s hs
    simp [transcode_node, hs, stepBuf]
  · intro buf s hs
    simp only [transcode_node, if_neg hs, stepBuf]
    exact ⟨⟨s, extend_data buf s⟩, fun h0 => extend_ffi buf s h0⟩
  · intro buf bo
    cases bo <;> simp [transcode_node, stepBuf]
  · intro buf
    simp [transcode_node, stepBuf]
  · intro buf
    simp [transcode_items, stepBuf]
  · intro buf e rest er herr ihe
    rw [herr] at ihe
    simp only [transcode_items, herr, stepBuf] at ihe ⊢
    obtain ⟨ek, eb⟩ := er
    exact ihe
  · intro buf e rest buf2 n t hok er herr ihe ihrest
    rw [hok] at ihe
    rw [herr] at ihrest
    simp only [transcode_items, hok, herr, stepBuf] at ihe ihrest ⊢
    obtain ⟨ek, eb⟩ := er
    obtain ⟨⟨t1, ht1⟩, hm1⟩ := ihe
    obtain ⟨⟨t2, ht2⟩, hm2⟩ := ihrest
    constructor
    · exact ⟨t1 ++ t2, by rw [ht2, ht1, List.append_assoc]⟩
    · intro h0
      have a1 := hm1 h0
      have a2 := hm2 a1.1
      exact ⟨a2.1, le_trans a1.2 a2.2⟩
  · intro buf e rest buf2 n t hok buf3 ns2 ts2 hok2 ihe ihrest
    rw [hok] at ihe
    rw [hok2] at ihrest
    simp only [transcode_items, hok, hok2, stepBuf] at ihe ihrest ⊢
    obtain ⟨⟨t1, ht1⟩, hm1⟩ := ihe
    obtain ⟨⟨t2, ht2⟩, hm2⟩ := ihrest
    constructor
    · exact ⟨t1 ++ t2, by rw [ht2, ht1, List.append_assoc]⟩
    · intro h0
      have a1 := hm1 h0
      have a2 := hm2 a1.1
      exact ⟨a2.1, le_trans a1.2 a2.2⟩
  · intro buf lk u
    simp [transcode_fields, stepBuf]
  · intro buf lk u key v rest bp er herr ih
    obtain ⟨ek, eb⟩ := er
    rw [herr] at ih
    simp only [stepBuf] at ih
    obtain ⟨⟨t1, ht1⟩, hm1⟩ := ih
    unfold_let bp at herr ht1 hm1
    by_cases hk : key.length < 9 <;> simp only [hk, ite_true, ite_false] at herr ht1 hm1
    · simp only [transcode_fields, hk, ite_true, herr, stepBuf]
      exact ⟨⟨t1, ht1⟩, hm1⟩
    · simp only [transcode_fields, hk, ite_false, herr, stepBuf]
      constructor
      · exact ⟨key ++ t1, by rw [ht1, extend_data, List.append_assoc]⟩
      · intro h0
        have a0 := extend_ffi buf key h0
        have a1 := hm1 a0.1
        exact ⟨a1.1, le_trans a0.2 a1.2⟩
  · intro buf lk u key v rest u2 bp buf2 n t hok er herr ihv ihrest
    obtain ⟨ek, eb⟩ := er
    rw [hok] at ihv
    rw [herr] at ihrest
    simp only [stepBuf] at ihv ihrest
    obtain ⟨⟨t1, ht1⟩, hm1⟩ := ihv
    obtain ⟨⟨t2, ht2⟩, hm2⟩ := ihrest
    unfold_let bp at hok ht1 hm1
    by_cases hk : key.length < 9 <;> simp only [hk, ite_true, ite_false] at hok ht1 hm1
    · simp only [transcode_fields, hk, ite_true, hok, herr, stepBuf]
      constructor
      · exact ⟨t1 ++ t2, by rw [ht2, ht1, List.append_assoc]⟩
      · intro h0
        have a1 := hm1 h0
        have a2 := hm2 a1.1
        exact ⟨a2.1, le_trans a1.2 a2.2⟩
    · simp only [transcode_fields, hk, ite_false, hok, herr, stepBuf]
      constructor
      · exact ⟨key ++ (t1 ++ t2), by
          rw [ht2, ht1, extend_data, List.append_assoc, List.append_assoc]⟩
      · intro h0
        have a0 := extend_ffi buf key h0
        have a1 := hm1 a0.1
        have a2 := hm2 a1.1
        exact ⟨a2.1, le_trans a0.2 (le_trans a1.2 a2.2)⟩
  · intro buf lk u key v rest u2 bp buf2 n t hok buf3 fs uns ts hok2 ihv ihrest
    rw [hok] at ihv
    rw [hok2] at ihrest
    simp only [stepBuf] at ihv ihrest
    obtain ⟨⟨t1, ht1⟩, hm1⟩ := ihv
    obtain ⟨⟨t2, ht2⟩, hm2⟩ := ihrest
    unfold_let bp at hok ht1 hm1
    by_cases hk : key.length < 9 <;> simp only [hk, ite_true, ite_false] at hok ht1 hm1
    · simp only [transcode_fields, hk, ite_true, hok, hok2, stepBuf]
      constructor
      · exact ⟨t1 ++ t2, by rw [ht2, ht1, List.append_assoc]⟩
      · intro h0
        have a1 := hm1 h0
        have a2 := hm2 a1.1
        exact ⟨a2.1, le_trans a1.2 a2.2⟩
    · simp only [transcode_fields, hk, ite_false, hok, hok2, stepBuf]
      constructor
      · exact ⟨key ++ (t1 ++ t2), by
          rw [ht2, ht1, extend_data, List.append_assoc, List.append_assoc]⟩
      · intro h0
        have a0 := extend_ffi buf key h0
        have a1 := hm1 a0.1
        have a2 := hm2 a1.1
        exact ⟨a2.1, le_trans a0.2 (le_trans a1.2 a2.2)⟩

/-! ## Claim C8: the output length recorded after an error -/

theorem runDoc_ffi (input : List Nat) (buf : PBuffer) (d : DocToken)
    (h : buf.ffiLen ≤ buf.data.length) :
    (∀ b2, runDoc input buf d = .ok b2 →
        b2.ffiLen ≤ b2.data.length ∧ buf.ffiLen ≤ b2.ffiLen) ∧
    (∀ ek n, runDoc input buf d = .error (ek, n) → buf.ffiLen ≤ n) := by
  have h1 := extend_ffi buf (wordBytes (mkWord 0 0)) h
  cases hn : transcode_node (buf.extend (wordBytes (mkWord 0 0))) d.elem with
  | error er =>
    obtain ⟨ek0, b0⟩ := er
    have hm := (transcode_buffer_facts.1 (buf.extend (wordBytes (mkWord 0 0))) d.elem).2 h1.1
    rw [hn] at hm
    simp only [stepBuf] at hm
    constructor
    · intro b2 hok
      rw [runDoc] at hok
      simp only [hn] at hok
      exact absurd hok (by simp)
    · intro ek n herr
      rw [runDoc] at herr
      simp only [hn] at herr
      obtain ⟨-, h2⟩ := by simpa using herr
      omega
  | ok r =>
    obtain ⟨buf2, root, tl⟩ := r
    have hm := (transcode_buffer_facts.1 (buf.extend (wordBytes (mkWord 0 0))) d.elem).2 h1.1
    rw [hn] at hm
    simp only [stepBuf] at hm
    have hp := place_array_ffi buf2 [root] 0 hm.1
    by_cases hnl : input.getD (d.endIndex - 1) 0 ≠ 10
    · constructor
      · intro b2 hok
        rw [runDoc] at hok
        simp only [hn, if_pos hnl] at hok
        exact absurd hok (by simp)
      · intro ek n herr
        rw [runDoc] at herr
        simp only [hn, if_pos hnl] at herr
        obtain ⟨-, h2⟩ := by simpa using herr
        have : buf.ffiLen ≤ (place_array buf2 [root] 0).1.ffiLen :=
          le_trans h1.2 (le_trans hm.2 hp.2)
        omega
    · constructor
      · intro b2 hok
        rw [runDoc] at hok
        simp only [hn, if_neg hnl] at hok
        obtain h2 := by simpa using hok
        rw [← h2]
        refine ⟨?_, le_trans h1.2 (le_trans hm.2 hp.2)⟩
        simp only [List.length_append]
        have h3 := hp.1
        have h4 : (wordBytes (mkWord ((d.endIndex : Nat))
            ((place_array buf2 [root] 0).1.data.length
              - (buf.extend (wordBytes (mkWord 0 0))).data.length))).length = 8 := rfl
        have h5 : (buf.extend (wordBytes (mkWord 0 0))).data.length
            ≤ (place_array buf2 [root] 0).1.data.length := by
          obtain ⟨t1, ht1⟩ := transcode_buffer_facts.1 (buf.extend (wordBytes (mkWord 0 0))) d.elem |>.1
          rw [hn] at ht1
          simp only [stepBuf] at ht1
          obtain ⟨t2, ht2⟩ := place_array_data buf2 [root] 0
          rw [ht2, ht1]
          simp
        have h6 : (buf.extend (wordBytes (mkWord 0 0))).data.length
            = buf.data.length + 8 := by
          simp [extend_data, wordBytes]
        simp only [List.length_take, List.length_drop, h4]
        omega
      · intro ek n herr
        rw [runDoc] at herr
        simp only [hn, if_neg hnl] at herr
        exact absurd herr (by simp)

theorem runDocs_ffi (input : List Nat) (docs : List DocToken) : ∀ (buf : PBuffer),
    buf.ffiLen ≤ buf.data.length →
    (∀ b2, runDocs input buf docs = .ok b2 →
        b2.ffiLen ≤ b2.data.length ∧ buf.ffiLen ≤ b2.ffiLen) ∧
    (∀ ek n, runDocs input buf docs = .error (ek, n) → buf.ffiLen ≤ n) := by
  induction docs with
  | nil =>
    intro buf h
    constructor
    · intro b2 hok
      simp only [runDocs] at hok
      obtain h2 := by simpa using hok
      rw [← h2]
      exact ⟨h, le_refl _⟩
    · intro ek n herr
      simp only [runDocs] at herr
      exact absurd herr (by simp)
  | cons d rest ih =>
    intro buf h
    have hdoc := runDoc_ffi input buf d h
    cases hd : runDoc input buf d with
    | error er =>
      obtain ⟨ek0, n0⟩ := er
      constructor
      · intro b2 hok
        simp only [runDocs, hd] at hok
        exact absurd hok (by simp)
      · intro ek n herr
        simp only [runDocs, hd] at herr
        obtain ⟨h2, h3⟩ := by simpa using herr
        have := hdoc.2 ek0 n0 hd
        omega
    | ok bufd =>
      have hw := hdoc.1 bufd hd
      have hrest := ih bufd hw.1
      constructor
      · intro b2 hok
        simp only [runDocs, hd] at hok
        have := hrest.1 b2 hok
        exact ⟨this.1, le_trans hw.2 this.2⟩
      · intro ek n herr
        simp only [runDocs, hd] at herr
        exact le_trans hw.2 (hrest.2 ek n herr)

/-- C8 counterexample: transcoding two documents where the second fails its
trailing-newline check (input `"hi"` newline `"x"` `Z`, tokenized as the
string `hi` ending at 5 and the string `x` ending at 9, with no newline at
byte 8): the exception leaves the recorded output length at 32 — the value
the last buffer growth recorded, which already includes 8 bytes of the
failing document's record — not the failing document's pre-record length,
which is 24. -/
theorem c8_counterexample :
    transcode [34, 104, 105, 34, 10, 34, 120, 34, 90]
        [⟨.str [104, 105], 5⟩, ⟨.str [120], 9⟩] 0 empty0
      = .error (.missingNewline, 32) ∧
    (runDocs [34, 104, 105, 34, 10, 34, 120, 34, 90] empty0
        [⟨.str [104, 105], 5⟩]).map (fun b => b.data.length) = .ok 24 ∧
    (32 : Nat) ≠ 24 :=
  ⟨rfl, rfl, by decide⟩

/-- C8 (amended): when `Parser::transcode` raises any error, the output's
recorded length is whatever the most recent buffer growth recorded through
the grow hook (`ffi->set_len`), or the trailing-check path's full length —
`output.set_len` is never reached by the throw, so the buffer is not
truncated to the failing document's pre-record length and may reflect
partially transcoded bytes of the failing document; the recorded length
never rewinds below its value at the start of the call. -/
theorem c8_amended (input : List Nat) (docs : List DocToken) (truncated : Nat)
    (out0 : PBuffer) (ek : TErr) (n : Nat)
    (h0 : out0.ffiLen ≤ out0.data.length)
    (herr : transcode input docs truncated out0 = .error (ek, n)) :
    out0.ffiLen ≤ n := by
  rw [transcode] at herr
  cases hd : runDocs input out0 docs with
  | error er =>
    obtain ⟨ek0, n0⟩ := er
    rw [hd] at herr
    obtain ⟨h2, h3⟩ := by simpa using herr
    have := (runDocs_ffi input docs out0 h0).2 ek0 n0 hd
    omega
  | ok buf =>
    rw [hd] at herr
    have hw := (runDocs_ffi input docs out0 h0).1 buf hd
    by_cases ht : truncated ≠ 0 ∧ input.length ≠ 0
    · simp only [if_pos ht] at herr
      obtain ⟨h2, h3⟩ := by simpa using herr
      omega
    · simp only [if_neg ht] at herr
      exact absurd herr (by simp)

/-- Witness for C8 at the concrete failing stream of `c8_counterexample`:
the recorded length 32 is at least the initial recorded length. -/
theorem c8_witness : empty0.ffiLen ≤ 32 :=
  c8_amended [34, 104, 105, 34, 10, 34, 120, 34, 90]
    [⟨.str [104, 105], 5⟩, ⟨.str [120], 9⟩] 0 empty0 .missingNewline 32 (by decide) rfl

/-! ## Claim C9: stability of the object sort -/

/-- Modelled from the spec: the guarantee `std::sort` gives the call in
`sort_pfields` — the output is some permutation of the fields that is
sorted with respect to the comparator `view(lhs) < view(rhs)`.  The C++
standard leaves the relative order of tie keys unspecified (`std::sort` is
not a stable sort; the source would need `std::stable_sort` for that). -/
def SortSpec (bufData : List Nat) (inFs outFs : List pfield) : Prop :=
  inFs.Perm outFs ∧ outFs.Pairwise (fun a b => fieldLt bufData b a = false)

/-- C9: with two fields that share the byte-identical key `a`, the swapped
order satisfies everything `std::sort` guarantees for `sort_pfields`, so
the code does not ensure that duplicate keys keep their input order: the
sort contract admits an unstable outcome. -/
theorem c9_sort_unstable :
    SortSpec [] [⟨inlineWord [97], ⟨0x07, 1⟩⟩, ⟨inlineWord [97], ⟨0x07, 2⟩⟩]
      [⟨inlineWord [97], ⟨0x07, 2⟩⟩, ⟨inlineWord [97], ⟨0x07, 1⟩⟩] ∧
    [pfield.mk (inlineWord [97]) ⟨0x07, 2⟩, pfield.mk (inlineWord [97]) ⟨0x07, 1⟩]
      ≠ [pfield.mk (inlineWord [97]) ⟨0x07, 1⟩, pfield.mk (inlineWord [97]) ⟨0x07, 2⟩] := by
  refine ⟨⟨?_, ?_⟩, ?_⟩ <;> decide

/-! ## Claim C1: sortedness of emitted object fields -/

theorem lexLt_trans : ∀ a b c : List Nat,
    lexLt a b = true → lexLt b c = true → lexLt a c = true := by
  intro a
  induction a with
  | nil =>
    intro b c hab hbc
    cases b with
    | nil => simp [lexLt] at hab
    | cons y ys =>
      cases c with
      | nil => simp [lexLt] at hbc
      | cons z zs => simp [lexLt]
  | cons x xs ih =>
    intro b c hab hbc
    cases b with
    | nil => simp [lexLt] at hab
    | cons y ys =>
      cases c with
      | nil => simp [lexLt] at hbc
      | cons z zs =>
        simp only [lexLt, Bool.or_eq_true, Bool.and_eq_true, decide_eq_true_eq,
          beq_iff_eq] at hab hbc ⊢
        rcases hab with h1 | ⟨h1, h2⟩ <;> rcases hbc with h3 | ⟨h3, h4⟩
        · exact Or.inl (lt_trans h1 h3)
        · exact Or.inl (h3 ▸ h1)
        · exact Or.inl (h1 ▸ h3)
        · exact Or.inr ⟨h1.trans h3, ih ys zs h2 h4⟩

theorem lexLt_asymm : ∀ a b : List Nat, lexLt a b = true → lexLt b a = false := by
  intro a
  induction a with
  | nil =>
    intro b hab
    cases b with
    | nil => simp [lexLt] at hab
    | cons y ys => simp [lexLt]
  | cons x xs ih =>
    intro b hab
    cases b with
    | nil => simp [lexLt] at hab
    | cons y ys =>
      simp only [lexLt, Bool.or_eq_true, Bool.and_eq_true, decide_eq_true_eq,
        beq_iff_eq] at hab
      rw [← Bool.not_eq_true]
      simp only [lexLt, Bool.or_eq_true, Bool.and_eq_true, decide_eq_true_eq, beq_iff_eq]
      rcases hab with h1 | ⟨h1, h2⟩
      · rintro (h3 | ⟨h3, h4⟩)
        · omega
        · omega
      · subst h1
        rintro (h3 | ⟨h3, h4⟩)
        · omega
        · rw [ih ys h2] at h4
          simp at h4

theorem wordBytes_leWord (bs : List Nat) (h8 : bs.length = 8) (hb : ∀ b ∈ bs, b < 256) :
    wordBytes (leWord bs) = bs := by
  match bs, h8 with
  | [b0, b1, b2, b3, b4, b5, b6, b7], _ =>
    have h0 : b0 < 256 := hb _ (by simp)
    have h1 : b1 < 256 := hb _ (by simp)
    have h2 : b2 < 256 := hb _ (by simp)
    have h3 : b3 < 256 := hb _ (by simp)
    have h4 : b4 < 256 := hb _ (by simp)
    have h5 : b5 < 256 := hb _ (by simp)
    have h6 : b6 < 256 := hb _ (by simp)
    have h7 : b7 < 256 := hb _ (by simp)
    simp only [wordBytes, leWord, List.cons.injEq, and_true]
    norm_num
    omega

theorem decode_encode_indirect (len : Nat) (h : len ≤ 0x3FFFFFFF) :
    decode_indirect_str_length (encode_indirect_str_length len) = len := by
  simp only [decode_indirect_str_length, encode_indirect_str_length]
  omega

theorem encode_indirect_lt (len : Nat) : encode_indirect_str_length len < 2 ^ 32 := by
  simp only [encode_indirect_str_length]
  omega

theorem is_indirect_encode (len : Nat) :
    is_indirect_str (wLo (mkWord (encode_indirect_str_length len) h)) = true := by
  have := encode_indirect_lt len
  simp only [is_indirect_str, wLo, mkWord, encode_indirect_str_length] at *
  simp only [beq_iff_eq]
  omega

theorem leWord_head (b : Nat) (t : List Nat) : leWord (b :: t) % 256 = b % 256 := by
  simp only [leWord]
  omega

theorem is_indirect_inlineWord (k : List Nat) (hb : ∀ b ∈ k, b < 255)
    (hfirst : ∀ b ∈ k.take 1, b < 128 ∨ 192 ≤ b) :
    is_indirect_str (wLo (inlineWord k)) = false := by
  have hlow : inlineWord k % 256 = (k.headD 255) % 256 := by
    cases k with
    | nil => simp [inlineWord, leWord, List.replicate_succ]
    | cons b t => simp only [inlineWord, List.cons_append, leWord_head, List.headD]
  have hdiv : wLo (inlineWord k) / 64 % 4 = inlineWord k % 256 / 64 := by
    simp only [wLo]
    omega
  have hbyte : (k.headD 255) % 256 / 64 ≠ 2 := by
    cases k with
    | nil => simp
    | cons b t =>
      have hb1 : b < 255 := hb b (by simp)
      have hf : b < 128 ∨ 192 ≤ b := hfirst b (by simp)
      simp only [List.headD]
      omega
  simp only [is_indirect_str, beq_eq_false_iff_ne, ne_eq]
  rw [hdiv, hlow]
  exact hbyte

theorem wLo_mkWord (l h : Nat) : wLo (mkWord l h) = l % 2 ^ 32 := by
  have h1 : l % 2 ^ 32 < 2 ^ 32 := Nat.mod_lt _ (by norm_num)
  simp only [wLo, mkWord]
  omega

theorem not32_wHi_not64 (l pos : Nat) (hpos : pos < 2 ^ 32) :
    not32 (wHi (mkWord l (not64 pos))) = pos := by
  rw [wHi_mkWord]
  simp only [not32, not64]
  omega

/-- A plausible UTF-8 object key as the simdjson tokenizer delivers it:
bytes below `0xFF` (`0xFF` is not a valid UTF-8 byte), a first byte that is
not a continuation byte `10xxxxxx` (no valid UTF-8 string starts with one),
and a length within the indirect length encoding's documented precondition. -/
def GoodKey (k : List Nat) : Prop :=
  (∀ b ∈ k, b < 255) ∧ (∀ b ∈ k.take 1, b < 128 ∨ 192 ≤ b) ∧ k.length ≤ 0x3FFFFFFF

instance : DecidablePred GoodKey := fun k => by
  unfold GoodKey
  infer_instance

theorem fieldView_inline (bufData : List Nat) (k : List Nat) (hk : k.length < 9)
    (hb : ∀ b ∈ k, b < 255) (hfirst : ∀ b ∈ k.take 1, b < 128 ∨ 192 ≤ b) :
    fieldView bufData (inlineWord k) = k := by
  rw [fieldView, if_neg (by simp [is_indirect_inlineWord k hb hfirst])]
  rw [decode_inline_inlineWord k (by omega) hb]
  have hwb : wordBytes (inlineWord k) = k ++ List.replicate (8 - k.length) 255 := by
    apply wordBytes_leWord
    · simp
      omega
    · intro b hbm
      rcases List.mem_append.mp hbm with h | h
      · exact lt_trans (hb b h) (by norm_num)
      · rw [List.eq_of_mem_replicate h]
        norm_num
  rw [hwb]
  exact List.take_left k _

theorem fieldView_indirect (bufData : List Nat) (k r : List Nat) (pos : Nat)
    (hpos : pos < 2 ^ 32) (hlen : k.length ≤ 0x3FFFFFFF)
    (hslice : bufData.drop pos = k ++ r) :
    fieldView bufData (mkWord (encode_indirect_str_length k.length) (not64 pos)) = k := by
  rw [fieldView, if_pos]
  · rw [not32_wHi_not64 _ pos hpos, hslice, wLo_mkWord,
      Nat.mod_eq_of_lt (encode_indirect_lt _), decode_encode_indirect _ hlen]
    exact List.take_left k r
  · rw [wLo_mkWord, Nat.mod_eq_of_lt (encode_indirect_lt _)]
    have := is_indirect_encode (h := not64 pos) k.length
    rw [wLo_mkWord, Nat.mod_eq_of_lt (encode_indirect_lt _)] at this
    exact this

theorem transcode_node_extends {buf : PBuffer} {v : Elem} {b : PBuffer} {n : pnode} {t : Nat}
    (h : transcode_node buf v = .ok (b, n, t)) :
    ∃ d, b.data = buf.data ++ d := by
  have h2 := (transcode_buffer_facts.1 buf v).1
  rw [h] at h2
  simpa [stepBuf] using h2

theorem transcode_fields_extends {buf : PBuffer} {lk : List Nat} {u : Nat}
    {fs : List (List Nat × Elem)} {b : PBuffer} {out : List pfield} {uns ts : Nat}
    (h : transcode_fields buf lk u fs = .ok (b, out, uns, ts)) :
    ∃ d, b.data = buf.data ++ d := by
  have h2 := (transcode_buffer_facts.2.1 buf lk u fs).1
  rw [h] at h2
  simpa [stepBuf] using h2

/-- The field-materialization and conditional-sort phase of
`transcode_object` (everything before `place_object`): transcode the fields
with the unsorted counter starting from the empty last key, then sort when
the counter is nonzero.  `transcode_node`'s OBJECT case is exactly this
phase followed by `place_object` (see `transcode_object_via_emitted`). -/
def emittedFields (buf : PBuffer) (fields : List (List Nat × Elem)) :
    Except (TErr × PBuffer) (PBuffer × List pfield × Nat) :=
  match transcode_fields buf [] 0 fields with
  | .error er => .error er
  | .ok (b, fs, uns, built) => .ok (b, (if uns ≠ 0 then sortFields b fs else fs), built)

theorem transcode_object_via_emitted (buf : PBuffer) (fields : List (List Nat × Elem))
    (hbig : ¬ 0xffffff ≤ fields.length) :
    transcode_node buf (.obj fields)
      = match emittedFields buf fields with
        | .error er => .error er
        | .ok (b, fs, built) =>
          .ok ((place_object b fs (1 + built)).1, (place_object b fs (1 + built)).2, 1 + built) := by
  rw [transcode_node, emittedFields]
  cases h : transcode_fields buf [] 0 fields with
  | error er => simp [hbig, h]
  | ok r =>
    obtain ⟨b, fs, uns, built⟩ := r
    simp [hbig, h]

/-- Every emitted field's property, viewed through the comparator's
decoder against the final buffer, is exactly its source key. -/
theorem emitted_views (fields : List (List Nat × Elem)) : ∀ buf lk u b fs uns ts,
    transcode_fields buf lk u fields = .ok (b, fs, uns, ts) →
    (∀ kv ∈ fields, GoodKey kv.1) →
    b.data.length ≤ 2 ^ 32 →
    List.Forall₂ (fun kv f => fieldView b.data f.property = kv.1) fields fs := by
  induction fields with
  | nil =>
    intro buf lk u b fs uns ts h hkeys hsize
    simp only [transcode_fields] at h
    obtain ⟨-, h2, -, -⟩ := by simpa using h
    rw [h2]
    constructor
  | cons kv rest ih =>
    obtain ⟨key, v⟩ := kv
    intro buf lk u b fs uns ts h hkeys hsize
    have hgood : GoodKey key := hkeys (key, v) (by simp)
    by_cases hk : key.length < 9
    · rw [transcode_fields] at h
      simp only [hk, ite_true] at h
      cases hv : transcode_node buf v with
      | error er => rw [hv] at h; exact absurd h (by simp)
      | ok rv =>
        obtain ⟨b3, n, t⟩ := rv
        rw [hv] at h
        dsimp only at h
        cases hrest : transcode_fields b3 key
            (u + if lexLe key lk = true then 1 else 0) rest with
        | error er => rw [hrest] at h; exact absurd h (by simp)
        | ok rr =>
          obtain ⟨b4, fs4, uns4, ts4⟩ := rr
          rw [hrest] at h
          obtain ⟨hb, hfs, -, -⟩ := by simpa using h
          rw [← hfs, ← hb]
          constructor
          · exact fieldView_inline _ key hk hgood.1 hgood.2.1
          · exact ih b3 key _ b4 fs4 uns4 ts4 hrest
              (fun kv2 hm => hkeys kv2 (by simp [hm])) (hb ▸ hsize)
    · rw [transcode_fields] at h
      simp only [hk, ite_false] at h
      cases hv : transcode_node (buf.extend key) v with
      | error er => rw [hv] at h; exact absurd h (by simp)
      | ok rv =>
        obtain ⟨b3, n, t⟩ := rv
        rw [hv] at h
        dsimp only at h
        cases hrest : transcode_fields b3 key
            (u + if lexLe key lk = true then 1 else 0) rest with
        | error er => rw [hrest] at h; exact absurd h (by simp)
        | ok rr =>
          obtain ⟨b4, fs4, uns4, ts4⟩ := rr
          rw [hrest] at h
          obtain ⟨hb, hfs, -, -⟩ := by simpa using h
          obtain ⟨d1, hd1⟩ := transcode_node_extends hv
          obtain ⟨d2, hd2⟩ := transcode_fields_extends hrest
          have hbdata : b.data = buf.data ++ (key ++ (d1 ++ d2)) := by
            rw [← hb, hd2, hd1, extend_data]
            simp [List.append_assoc]
          have hlen9 : 9 ≤ key.length := by omega
          have hpos : buf.data.length < 2 ^ 32 := by
            have : b.data.length = buf.data.length + (key.length + (d1.length + d2.length)) := by
              rw [hbdata]; simp
            omega
          rw [← hfs, ← hb]
          constructor
          · refine fieldView_indirect _ key (d1 ++ d2) buf.data.length hpos hgood.2.2 ?_
            rw [hb, hbdata]
            rw [List.drop_left]
          · exact ih b3 key _ b4 fs4 uns4 ts4 hrest
              (fun kv2 hm => hkeys kv2 (by simp [hm])) (hb ▸ hsize)

theorem fieldLt_trans {bufData : List Nat} {a b c : pfield}
    (h1 : fieldLt bufData a b = true) (h2 : fieldLt bufData b c = true) :
    fieldLt bufData a c = true :=
  lexLt_trans _ _ _ h1 h2

theorem fieldLt_asymm {bufData : List Nat} {a b : pfield}
    (h : fieldLt bufData a b = true) : fieldLt bufData b a = false :=
  lexLt_asymm _ _ h

theorem insertField_mem (bufData : List Nat) (f x : pfield) :
    ∀ l, x ∈ insertField bufData f l → x = f ∨ x ∈ l := by
  intro l
  induction l with
  | nil => intro h; simpa [insertField] using h
  | cons g rest ih =>
    intro h
    rw [insertField] at h
    by_cases hfg : fieldLt bufData f g = true
    · rw [if_pos hfg] at h
      rcases List.mem_cons.mp h with h1 | h1
      · exact Or.inl h1
      · exact Or.inr h1
    · rw [if_neg hfg] at h
      rcases List.mem_cons.mp h with h | h
      · exact Or.inr (by simp [h])
      · rcases ih h with h | h
        · exact Or.inl h
        · exact Or.inr (by simp [h])

theorem insertField_sorted (bufData : List Nat) (f : pfield) :
    ∀ l, l.Pairwise (fun a b => fieldLt bufData b a = false) →
    (insertField bufData f l).Pairwise (fun a b => fieldLt bufData b a = false) := by
  intro l
  induction l with
  | nil => intro h; simp [insertField]
  | cons g rest ih =>
    intro h
    rw [insertField]
    rcases List.pairwise_cons.mp h with ⟨hg, hrest⟩
    by_cases hfg : fieldLt bufData f g = true
    · rw [if_pos hfg]
      refine List.pairwise_cons.mpr ⟨?_, h⟩
      intro x hx
      rcases List.mem_cons.mp hx with hx | hx
      · rw [hx]; exact fieldLt_asymm hfg
      · cases hxf : fieldLt bufData x f with
        | false => rfl
        | true =>
          have : fieldLt bufData x g = true := fieldLt_trans hxf hfg
          rw [hg x hx] at this
          exact absurd this (by simp)
    · rw [if_neg hfg]
      refine List.pairwise_cons.mpr ⟨?_, ih hrest⟩
      intro x hx
      rcases insertField_mem bufData f x rest hx with hx | hx
      · rw [hx]
        exact Bool.eq_false_iff.mpr hfg
      · exact hg x hx

theorem sortFields_sorted (buf : PBuffer) (fs : List pfield) :
    (sortFields buf fs).Pairwise (fun a b => fieldLt buf.data b a = false) := by
  rw [sortFields]
  have step : ∀ (l : List pfield) (acc : List pfield),
      acc.Pairwise (fun a b => fieldLt buf.data b a = false) →
      (l.foldl (fun acc f => insertField buf.data f acc) acc).Pairwise
        (fun a b => fieldLt buf.data b a = false) := by
    intro l
    induction l with
    | nil => intro acc h; exact h
    | cons f rest ih =>
      intro acc h
      exact ih _ (insertField_sorted buf.data f acc h)
  exact step fs [] (by constructor)

/-- The unsorted counter only grows, and a zero final count means every key
strictly exceeded its predecessor (starting from the running last key). -/
theorem unsorted_chain (fields : List (List Nat × Elem)) : ∀ buf lk u b fs uns ts,
    transcode_fields buf lk u fields = .ok (b, fs, uns, ts) →
    u ≤ uns ∧ (uns = 0 →
      List.Chain (fun a c => lexLt a c = true) lk (fields.map Prod.fst)) := by
  induction fields with
  | nil =>
    intro buf lk u b fs uns ts h
    simp only [transcode_fields] at h
    obtain ⟨-, -, hu, -⟩ := by simpa using h
    exact ⟨by omega, fun _ => List.Chain.nil⟩
  | cons kv rest ih =>
    obtain ⟨key, v⟩ := kv
    intro buf lk u b fs uns ts h
    rw [transcode_fields] at h
    by_cases hk : key.length < 9 <;> simp only [hk, ite_true, ite_false] at h
    all_goals {
      rcases hv : transcode_node (if key.length < 9 then buf else buf.extend key) v with er | ⟨b3, n, t⟩ <;>
        simp only [hk, ite_true, ite_false] at hv <;> rw [hv] at h <;> dsimp only at h
      · exact absurd h (by simp)
      · rcases hrest : transcode_fields b3 key
            (u + if lexLe key lk = true then 1 else 0) rest with er | ⟨b4, fs4, uns4, ts4⟩ <;>
          rw [hrest] at h
        · exact absurd h (by simp)
        · obtain ⟨-, -, huns, -⟩ := by simpa using h
          obtain ⟨hmono, hchain⟩ := ih b3 key _ b4 fs4 uns4 ts4 hrest
          constructor
          · omega
          · intro h0
            rw [← huns] at h0
            have hinc : (if lexLe key lk = true then 1 else 0) = 0 := by omega
            have hlelk : lexLe key lk = false := by
              by_cases hle : lexLe key lk = true
              · rw [if_pos hle] at hinc; omega
              · exact Bool.eq_false_iff.mpr hle
            have hlt : lexLt lk key = true := by
              rw [lexLe] at hlelk
              simpa using hlelk
            simp only [List.map_cons]
            exact List.Chain.cons hlt (hchain (by omega))
    }

/-- C1 counterexample: an object with the duplicate key `a` (byte 97)
twice — accepted by the tokenizer, and preserved per the design notes —
emits two fields whose decoded property strings are equal, so the decoded
key sequence of this object's child fields is not strictly ascending. -/
theorem c1_counterexample :
    emittedFields empty0 [([97], .null), ([97], .null)]
      = .ok (empty0, [⟨18446744073709551457, ⟨5, 0⟩⟩, ⟨18446744073709551457, ⟨5, 0⟩⟩], 2) ∧
    ([⟨18446744073709551457, ⟨5, 0⟩⟩, ⟨18446744073709551457, ⟨5, 0⟩⟩] : List pfield).map
        (fun f => fieldView empty0.data f.property) = [[97], [97]] ∧
    ¬ (([[97], [97]] : List (List Nat)).Pairwise fun a c => lexLt a c = true) := by
  refine ⟨rfl, by decide, by decide⟩

theorem forall2_view_map {α : Type} (g : pfield → List Nat) (h : α → List Nat) :
    ∀ (l1 : List α) (l2 : List pfield),
    List.Forall₂ (fun kv f => g f = h kv) l1 l2 → l2.map g = l1.map h := by
  intro l1 l2 hf
  induction hf with
  | nil => rfl
  | cons h1 _ ih => simp [ih, h1]

/-- C1 (amended): for every object the transcoder emits (the field list
that `place_object` serializes into the object's child region), decoding
the property strings of the child fields — inline descriptors by
trailing-`0xFF` count, indirect descriptors by following the stored
back-position into the archive — yields a non-decreasing lexicographic
byte sequence.  It is not strictly ascending in general: duplicate keys
are preserved and emitted with equal decoded keys (see the
counterexample); strictness holds only when all keys are distinct. -/
theorem c1_amended (fields : List (List Nat × Elem)) (buf b : PBuffer)
    (fs : List pfield) (built : Nat)
    (hrun : emittedFields buf fields = .ok (b, fs, built))
    (hkeys : ∀ kv ∈ fields, GoodKey kv.1)
    (hsize : b.data.length ≤ 2 ^ 32) :
    (fs.map (fun f => fieldView b.data f.property)).Pairwise
      (fun a c => lexLe a c = true) := by
  rw [emittedFields] at hrun
  cases h : transcode_fields buf [] 0 fields with
  | error er => rw [h] at hrun; exact absurd hrun (by simp)
  | ok r =>
    obtain ⟨b0, fs0, uns, ts⟩ := r
    rw [h] at hrun
    dsimp only at hrun
    obtain ⟨hb, hfs, -⟩ := by simpa using hrun
    subst hb
    by_cases huns : uns ≠ 0
    · rw [if_neg huns] at hfs
      subst hfs
      rw [List.pairwise_map]
      refine (sortFields_sorted b0 fs0).imp ?_
      intro a c hac
      simp only [fieldLt] at hac
      simp only [lexLe, hac, Bool.not_false]
    · push_neg at huns
      rw [if_pos huns] at hfs
      subst hfs
      have hviews := emitted_views fields buf [] 0 b0 fs0 uns ts h hkeys hsize
      have hmap : fs0.map (fun f => fieldView b0.data f.property)
          = fields.map Prod.fst :=
        forall2_view_map _ _ fields fs0 hviews
      rw [hmap]
      have hchain := (unsorted_chain fields buf [] 0 b0 fs0 uns ts h).2 huns
      have hchain' : (fields.map Prod.fst).Chain' (fun a c => lexLt a c = true) :=
        List.Chain'.tail (l := [] :: fields.map Prod.fst) hchain
      haveI : IsTrans (List Nat) (fun a c => lexLt a c = true) := ⟨lexLt_trans⟩
      have hpw := List.chain'_iff_pairwise.mp hchain'
      refine hpw.imp ?_
      intro a c hac
      simp only [lexLe, lexLt_asymm _ _ hac, Bool.not_false]

/-- Witness for C1 at the concrete unsorted object with keys `b`, `a`:
the emitted decoded keys are non-decreasing (here `a` then `b`). -/
theorem c1_witness :
    (([⟨18446744073709551457, ⟨5, 0⟩⟩, ⟨18446744073709551458, ⟨5, 0⟩⟩] : List pfield).map
        (fun f => fieldView empty0.data f.property)).Pairwise
      (fun a c => lexLe a c = true) :=
  c1_amended [([98], .null), ([97], .null)] empty0 empty0
    [⟨18446744073709551457, ⟨5, 0⟩⟩, ⟨18446744073709551458, ⟨5, 0⟩⟩] 2
    rfl (by decide) (by decide)

/-! ## Claim C7: concatenated inputs versus concatenated outputs -/

/-- Bytes below `0xFF` and no leading UTF-8 continuation byte. -/
def goodStr (s : List Nat) : Bool :=
  s.all (fun b => decide (b < 255)) &&
    (match s with
     | [] => true
     | b :: _ => decide (b < 128) || decide (192 ≤ b))

mutual

/-- Whether every string and object key in the element is a plausible
UTF-8 byte string (no `0xFF` byte and no leading continuation byte) — what
the simdjson tokenizer, which validates UTF-8, can actually deliver. -/
def goodElem : Elem → Bool
  | .arr items => goodItems items
  | .obj fields => goodFields fields
  | .str s => goodStr s
  | _ => true

/-- `goodElem` over a list of elements. -/
def goodItems : List Elem → Bool
  | [] => true
  | e :: rest => goodElem e && goodItems rest

/-- `goodStr` for every key and `goodElem` for every value. -/
def goodFields : List (List Nat × Elem) → Bool
  | [] => true
  | (key, v) :: rest => goodStr key && goodElem v && goodFields rest

end

/-- Shift of a not-yet-placed node by `s` bytes of buffer prefix: array and
object nodes hold the absolute child-region offset in `w2.lo`; indirect
string nodes hold the complemented absolute position of their raw bytes in
`w2.lo`; everything else carries no buffer position. -/
def shiftNode (s : Nat) (n : pnode) : pnode :=
  if n.w1 % 256 = 0x00 ∨ n.w1 % 256 = 0x06 then
    ⟨n.w1, mkWord (wLo n.w2 + s) (wHi n.w2)⟩
  else if n.w1 % 256 = 0x08 then
    (if is_indirect_str (wHi n.w1) then ⟨n.w1, mkWord (u32sub (wLo n.w2) s) (wHi n.w2)⟩ else n)
  else n

/-- Shift of a not-yet-placed field: an indirect property holds the
complemented absolute key position in its high half. -/
def shiftField (s : Nat) (f : pfield) : pfield :=
  ⟨if is_indirect_str (wLo f.property)
    then mkWord (wLo f.property) (u32sub (wHi f.property) s)
    else f.property,
   shiftNode s f.node⟩

theorem pnode_resolve_shift (s : Nat) (n : pnode) (off : Nat) :
    pnode_resolve (shiftNode s n) (off + s) = pnode_resolve n off := by
  by_cases h06 : n.w1 % 256 = 0x00 ∨ n.w1 % 256 = 0x06
  · rw [shiftNode, if_pos h06]
    rw [pnode_resolve, pnode_resolve]
    simp only [if_pos h06]
    congr 1
    simp only [wLo, wHi, mkWord, u32sub]
    omega
  · rw [shiftNode, if_neg h06]
    by_cases h8 : n.w1 % 256 = 0x08
    · rw [if_pos h8]
      by_cases hind : is_indirect_str (wHi n.w1) = true
      · rw [if_pos hind]
        rw [pnode_resolve, pnode_resolve]
        simp only [if_neg h06, if_pos h8]
        congr 1
        rw [pstr_resolve, pstr_resolve, if_pos, if_pos hind]
        · simp only [wLo, wHi, mkWord, u32sub, not32]
          omega
        · simpa [wHi, mkWord] using hind
      · rw [if_neg hind]
        rw [pnode_resolve, pnode_resolve]
        simp only [if_neg h06, if_pos h8]
        congr 1
        rw [pstr_resolve, pstr_resolve, if_neg, if_neg (by simpa using hind)]
        simpa [wHi, mkWord] using hind
    · rw [if_neg h8]
      rw [pnode_resolve, pnode_resolve]
      simp only [if_neg h06, if_neg h8]

theorem resolveNodes_shift (s : Nat) : ∀ (d : List pnode) (off : Nat),
    resolveNodes (off + s) (d.map (shiftNode s)) = resolveNodes off d := by
  intro d
  induction d with
  | nil => intro off; rfl
  | cons n t ih =>
    intro off
    simp only [List.map_cons, resolveNodes, pnode_resolve_shift]
    rw [show off + s + 16 = (off + 16) + s by omega, ih]

theorem pfield_resolve_shift (s : Nat) (f : pfield) (off : Nat) :
    (⟨mkWord (wLo (shiftField s f).property)
        (pstr_resolve (wLo (shiftField s f).property) (wHi (shiftField s f).property) (off + s)),
      pnode_resolve (shiftField s f).node (off + s + 8)⟩ : pfield)
    = ⟨mkWord (wLo f.property) (pstr_resolve (wLo f.property) (wHi f.property) off),
       pnode_resolve f.node (off + 8)⟩ := by
  have hnode : pnode_resolve (shiftField s f).node (off + s + 8)
      = pnode_resolve f.node (off + 8) := by
    rw [show off + s + 8 = (off + 8) + s by omega]
    exact pnode_resolve_shift s f.node (off + 8)
  rw [shiftField] at hnode ⊢
  by_cases hind : is_indirect_str (wLo f.property) = true
  · simp only [if_pos hind]
    rw [hnode]
    congr 1
    have hlo : wLo (mkWord (wLo f.property) (u32sub (wHi f.property) s)) = wLo f.property := by
      simp only [wLo, mkWord, u32sub]
      omega
    rw [hlo, pstr_resolve, pstr_resolve, if_pos hind, if_pos hind]
    congr 1
    simp only [wHi, mkWord, u32sub, not32]
    omega
  · simp only [if_neg hind]
    rw [hnode]
    congr 1
    rw [pstr_resolve, pstr_resolve, if_neg (by simpa using hind), if_neg (by simpa using hind)]

theorem resolveFields_shift (s : Nat) : ∀ (d : List pfield) (off : Nat),
    resolveFields (off + s) (d.map (shiftField s)) = resolveFields off d := by
  intro d
  induction d with
  | nil => intro off; rfl
  | cons f t ih =>
    intro off
    simp only [List.map_cons, resolveFields]
    rw [show off + s + 24 = (off + 24) + s by omega, ih]
    congr 1
    exact pfield_resolve_shift s f off

theorem mkWord_tag (l h : Nat) : mkWord l h % 256 = l % 256 := by
  simp only [mkWord]
  omega

theorem mkWord_mod_left (a c b : Nat) : mkWord (a % 2 ^ 32 + c) b = mkWord (a + c) b := by
  simp only [mkWord]
  omega

theorem mkWord_mod_right (a b : Nat) : mkWord a (b % 2 ^ 32) = mkWord a b := by
  simp only [mkWord]
  omega

theorem pad_shift (P : List Nat) (b0 b1 : PBuffer) (hdata : b1.data = P ++ b0.data)
    (hs : P.length % 8 = 0) :
    b1.pad.data = P ++ b0.pad.data := by
  rw [PBuffer.pad, PBuffer.pad, extend_data, extend_data, hdata]
  have : (P ++ b0.data).length % 8 = b0.data.length % 8 := by
    simp only [List.length_append]
    omega
  rw [this, List.append_assoc]

theorem place_array_shift (P : List Nat) (b0 b1 : PBuffer) (hdata : b1.data = P ++ b0.data)
    (hs : P.length % 8 = 0) (d : List pnode) (tape : Nat) :
    (place_array b1 (d.map (shiftNode P.length)) tape).1.data
      = P ++ (place_array b0 d tape).1.data ∧
    (place_array b1 (d.map (shiftNode P.length)) tape).2
      = shiftNode P.length (place_array b0 d tape).2 := by
  have hpad := pad_shift P b0 b1 hdata hs
  have hlen1 : b1.pad.data.length = b0.pad.data.length + P.length := by
    rw [hpad]; simp; omega
  have hl : (P ++ b0.pad.data).length = b0.pad.data.length + P.length := by
    simp
    omega
  constructor
  · simp only [place_array, extend_data, hpad, hl]
    rw [resolveNodes_shift P.length d b0.pad.data.length, List.append_assoc]
  · simp only [place_array, hlen1, List.length_map]
    rw [shiftNode, if_pos (by rw [mkWord_tag]; norm_num)]
    congr 1
    rw [wLo_mkWord, wHi_mkWord, mkWord_mod_left, mkWord_mod_right]

theorem place_object_shift (P : List Nat) (b0 b1 : PBuffer) (hdata : b1.data = P ++ b0.data)
    (hs : P.length % 8 = 0) (d : List pfield) (tape : Nat) :
    (place_object b1 (d.map (shiftField P.length)) tape).1.data
      = P ++ (place_object b0 d tape).1.data ∧
    (place_object b1 (d.map (shiftField P.length)) tape).2
      = shiftNode P.length (place_object b0 d tape).2 := by
  have hpad := pad_shift P b0 b1 hdata hs
  have hlen1 : b1.pad.data.length = b0.pad.data.length + P.length := by
    rw [hpad]; simp; omega
  have hl : (P ++ b0.pad.data).length = b0.pad.data.length + P.length := by
    simp
    omega
  constructor
  · simp only [place_object, extend_data, hpad, hl]
    rw [resolveFields_shift P.length d b0.pad.data.length, List.append_assoc]
  · simp only [place_object, hlen1, List.length_map]
    rw [shiftNode, if_pos (by rw [mkWord_tag]; norm_num)]
    congr 1
    rw [wLo_mkWord, wHi_mkWord, mkWord_mod_left, mkWord_mod_right]

theorem drop_append_left {α : Type} (P D : List α) (k : Nat) :
    (P ++ D).drop (P.length + k) = D.drop k := by
  rw [List.drop_append_eq_append_drop]
  simp

theorem fieldView_shift (P : List Nat) (D0 : List Nat) (f : pfield)
    (hf : is_indirect_str (wLo f.property) = true →
      not32 (wHi f.property) + P.length < 2 ^ 32) :
    fieldView (P ++ D0) (shiftField P.length f).property = fieldView D0 f.property := by
  by_cases hind : is_indirect_str (wLo f.property) = true
  · have hb := hf hind
    rw [shiftField]
    simp only [if_pos hind]
    have hlo : wLo (mkWord (wLo f.property) (u32sub (wHi f.property) P.length))
        = wLo f.property := by
      simp only [wLo, mkWord, u32sub]
      omega
    have hhi : not32 (wHi (mkWord (wLo f.property) (u32sub (wHi f.property) P.length)))
        = not32 (wHi f.property) + P.length := by
      rw [wHi_mkWord]
      simp only [not32, u32sub, wHi] at hb ⊢
      omega
    rw [fieldView, fieldView, hlo, if_pos hind, if_pos hind, hhi]
    rw [show not32 (wHi f.property) + P.length = P.length + not32 (wHi f.property) by omega]
    rw [drop_append_left]
  · rw [shiftField]
    simp only [if_neg hind]
    rw [fieldView, fieldView, if_neg (by simpa using hind), if_neg (by simpa using hind)]

theorem fieldLt_shift (P : List Nat) (D0 : List Nat) (a b : pfield)
    (ha : fieldView (P ++ D0) (shiftField P.length a).property = fieldView D0 a.property)
    (hb : fieldView (P ++ D0) (shiftField P.length b).property = fieldView D0 b.property) :
    fieldLt (P ++ D0) (shiftField P.length a) (shiftField P.length b) = fieldLt D0 a b := by
  rw [fieldLt, fieldLt, ha, hb]

theorem insertField_shift (P : List Nat) (D0 : List Nat) (f : pfield)
    (hfv : fieldView (P ++ D0) (shiftField P.length f).property = fieldView D0 f.property) :
    ∀ l : List pfield,
    (∀ g ∈ l, fieldView (P ++ D0) (shiftField P.length g).property = fieldView D0 g.property) →
    insertField (P ++ D0) (shiftField P.length f) (l.map (shiftField P.length))
      = (insertField D0 f l).map (shiftField P.length) := by
  intro l
  induction l with
  | nil => intro _; rfl
  | cons g rest ih =>
    intro hl
    have hgv := hl g (by simp)
    simp only [List.map_cons, insertField,
      fieldLt_shift P D0 f g hfv hgv]
    by_cases hlt : fieldLt D0 f g = true
    · rw [if_pos hlt, if_pos hlt]
      rfl
    · rw [if_neg hlt, if_neg hlt, ih (fun x hx => hl x (by simp [hx]))]
      rfl

theorem sortFields_shift (P : List Nat) (b0 b1 : PBuffer) (hdata : b1.data = P ++ b0.data)
    (fs : List pfield)
    (hpos : ∀ g ∈ fs, is_indirect_str (wLo g.property) = true →
      not32 (wHi g.property) + P.length < 2 ^ 32) :
    sortFields b1 (fs.map (shiftField P.length))
      = (sortFields b0 fs).map (shiftField P.length) := by
  rw [sortFields, sortFields, hdata]
  have main : ∀ (l acc : List pfield),
      (∀ g ∈ l, is_indirect_str (wLo g.property) = true →
        not32 (wHi g.property) + P.length < 2 ^ 32) →
      (∀ g ∈ acc, is_indirect_str (wLo g.property) = true →
        not32 (wHi g.property) + P.length < 2 ^ 32) →
      (l.map (shiftField P.length)).foldl
          (fun acc2 f => insertField (P ++ b0.data) f acc2) (acc.map (shiftField P.length))
        = (l.foldl (fun acc2 f => insertField b0.data f acc2) acc).map (shiftField P.length) := by
    intro l
    induction l with
    | nil => intro acc _ _; rfl
    | cons f rest ih =>
      intro acc hl hacc
      simp only [List.map_cons, List.foldl_cons]
      have hfv := fieldView_shift P b0.data f (hl f (by simp))
      have hins := insertField_shift P b0.data f hfv acc
        (fun g hg => fieldView_shift P b0.data g (hacc g hg))
      rw [hins]
      refine ih (insertField b0.data f acc) (fun g hg => hl g (by simp [hg])) ?_
      intro g hg
      rcases insertField_mem b0.data f g acc hg with h | h
      · rw [h]; exact hl f (by simp)
      · exact hacc g h
  exact main fs [] hpos (by simp)

theorem goodStr_spec (s : List Nat) (h : goodStr s = true) :
    (∀ b ∈ s, b < 255) ∧ (∀ b ∈ s.take 1, b < 128 ∨ 192 ≤ b) := by
  rw [goodStr.eq_def, Bool.and_eq_true] at h
  obtain ⟨h1, h2⟩ := h
  constructor
  · intro b hb
    have := List.all_eq_true.mp h1 b hb
    simpa using this
  · intro b hb
    cases s with
    | nil => simp at hb
    | cons c t =>
      simp only [List.take_succ_cons, List.take_zero, List.mem_singleton] at hb
      subst hb
      simpa using h2

theorem is_indirect_encode' (len : Nat) :
    is_indirect_str (encode_indirect_str_length len) = true := by
  simp only [is_indirect_str, encode_indirect_str_length, beq_iff_eq]
  omega

theorem transcode_node_extends_err {buf : PBuffer} {v : Elem} {ek : TErr} {eb : PBuffer}
    (h : transcode_node buf v = .error (ek, eb)) :
    ∃ d, eb.data = buf.data ++ d := by
  have h2 := (transcode_buffer_facts.1 buf v).1
  rw [h] at h2
  simpa [stepBuf] using h2

theorem transcode_items_extends {buf : PBuffer} {l : List Elem} {b : PBuffer}
    {ns : List pnode} {ts : Nat}
    (h : transcode_items buf l = .ok (b, ns, ts)) :
    ∃ d, b.data = buf.data ++ d := by
  have h2 := (transcode_buffer_facts.2.2 buf l).1
  rw [h] at h2
  simpa [stepBuf] using h2

theorem transcode_items_extends_err {buf : PBuffer} {l : List Elem} {ek : TErr} {eb : PBuffer}
    (h : transcode_items buf l = .error (ek, eb)) :
    ∃ d, eb.data = buf.data ++ d := by
  have h2 := (transcode_buffer_facts.2.2 buf l).1
  rw [h] at h2
  simpa [stepBuf] using h2

theorem transcode_fields_extends_err {buf : PBuffer} {lk : List Nat} {u : Nat}
    {fs : List (List Nat × Elem)} {ek : TErr} {eb : PBuffer}
    (h : transcode_fields buf lk u fs = .error (ek, eb)) :
    ∃ d, eb.data = buf.data ++ d := by
  have h2 := (transcode_buffer_facts.2.1 buf lk u fs).1
  rw [h] at h2
  simpa [stepBuf] using h2

/-- Relation between the runs of `transcode_node` over two buffers that
differ by the byte prefix `P`: both succeed, appending the same bytes and
returning the shifted node and the same tape, or both throw the same error
kind with equally related buffers. -/
def nodeShiftRel (P : List Nat)
    (r0 r1 : Except (TErr × PBuffer) (PBuffer × pnode × Nat)) : Prop :=
  match r0, r1 with
  | .ok (c0, n0, t0), .ok (c1, n1, t1) =>
      c1.data = P ++ c0.data ∧ n1 = shiftNode P.length n0 ∧ t1 = t0
  | .error (e0, b0), .error (e1, b1) => e1 = e0 ∧ b1.data = P ++ b0.data
  | _, _ => False

/-- The items analogue of `nodeShiftRel`. -/
def itemsShiftRel (P : List Nat)
    (r0 r1 : Except (TErr × PBuffer) (PBuffer × List pnode × Nat)) : Prop :=
  match r0, r1 with
  | .ok (c0, ns0, t0), .ok (c1, ns1, t1) =>
      c1.data = P ++ c0.data ∧ ns1 = ns0.map (shiftNode P.length) ∧ t1 = t0
  | .error (e0, b0), .error (e1, b1) => e1 = e0 ∧ b1.data = P ++ b0.data
  | _, _ => False

/-- The fields analogue of `nodeShiftRel`; it also records that each
produced indirect property points below the resulting buffer length. -/
def fieldsShiftRel (P : List Nat)
    (r0 r1 : Except (TErr × PBuffer) (PBuffer × List pfield × Nat × Nat)) : Prop :=
  match r0, r1 with
  | .ok (c0, fs0, u0, t0), .ok (c1, fs1, u1, t1) =>
      c1.data = P ++ c0.data ∧ fs1 = fs0.map (shiftField P.length) ∧ u1 = u0 ∧ t1 = t0 ∧
      (∀ g ∈ fs0, is_indirect_str (wLo g.property) = true →
        not32 (wHi g.property) < c0.data.length)
  | .error (e0, b0), .error (e1, b1) => e1 = e0 ∧ b1.data = P ++ b0.data
  | _, _ => False

theorem shiftNode_scalar (s t v : Nat) (h0 : ¬ t % 256 = 0) (h6 : ¬ t % 256 = 6)
    (h8 : ¬ t % 256 = 8) : shiftNode s ⟨t, v⟩ = ⟨t, v⟩ := by
  rw [shiftNode, if_neg (by simp [h0, h6]), if_neg h8]

theorem shiftNode_bool (s : Nat) (b : Bool) :
    shiftNode s ⟨if b then 0x101 else 0x01, 0⟩ = ⟨if b then 0x101 else 0x01, 0⟩ := by
  cases b
  · exact shiftNode_scalar s 0x01 0 (by norm_num) (by norm_num) (by norm_num)
  · exact shiftNode_scalar s 0x101 0 (by norm_num) (by norm_num) (by norm_num)

theorem shiftNode_inline (s : Nat) (a : List Nat) (hb : ∀ b ∈ a, b < 255)
    (hfirst : ∀ b ∈ a.take 1, b < 128 ∨ 192 ≤ b) :
    shiftNode s (inline_str_node a) = inline_str_node a := by
  have htag : (inline_str_node a).w1 % 256 = 8 := by
    show mkWord 0x08 (inlineWord a % 2 ^ 32) % 256 = 8
    rw [mkWord_tag]
  have hind : is_indirect_str (wHi (inline_str_node a).w1) = false := by
    show is_indirect_str (wHi (mkWord 0x08 (inlineWord a % 2 ^ 32))) = false
    rw [wHi_mkWord]
    have h2 : inlineWord a % 2 ^ 32 % 2 ^ 32 = wLo (inlineWord a) := by
      simp [wLo]
    rw [h2]
    exact is_indirect_inlineWord a hb hfirst
  rw [shiftNode, if_neg (by rw [htag]; simp), if_pos htag, if_neg (by rw [hind]; simp)]

theorem shiftNode_indirect (s pos len : Nat) :
    shiftNode s (indirect_str_node pos len)
      = ⟨mkWord 0x08 (encode_indirect_str_length len),
         mkWord (u32sub (not64 pos % 2 ^ 32) s) 0⟩ := by
  have htag : (indirect_str_node pos len).w1 % 256 = 8 := by
    show mkWord 0x08 (encode_indirect_str_length len) % 256 = 8
    rw [mkWord_tag]
  have hind : is_indirect_str (wHi (indirect_str_node pos len).w1) = true := by
    show is_indirect_str (wHi (mkWord 0x08 (encode_indirect_str_length len))) = true
    rw [wHi_mkWord, Nat.mod_eq_of_lt (encode_indirect_lt len)]
    exact is_indirect_encode' len
  rw [shiftNode, if_neg (by rw [htag]; simp), if_pos htag, if_pos hind]
  have hw2lo : wLo (indirect_str_node pos len).w2 = not64 pos % 2 ^ 32 := by
    show wLo (mkWord (not64 pos) 0) = _
    rw [wLo_mkWord]
  have hw2hi : wHi (indirect_str_node pos len).w2 = 0 := by
    show wHi (mkWord (not64 pos) 0) = 0
    rw [wHi_mkWord]
    norm_num
  rw [hw2lo, hw2hi]
  rfl

theorem shiftField_inline (s : Nat) (key : List Nat) (n : pnode)
    (hb : ∀ b ∈ key, b < 255) (hfirst : ∀ b ∈ key.take 1, b < 128 ∨ 192 ≤ b) :
    shiftField s ⟨inlineWord key, n⟩ = ⟨inlineWord key, shiftNode s n⟩ := by
  simp [shiftField, is_indirect_inlineWord key hb hfirst]

theorem shiftField_indirect_key (s L len : Nat) (n : pnode) (hL : L + s ≤ 2 ^ 32) :
    shiftField s ⟨mkWord (encode_indirect_str_length len) (not64 L), n⟩
      = ⟨mkWord (encode_indirect_str_length len) (not64 (s + L)), shiftNode s n⟩ := by
  have hind : is_indirect_str
      (wLo (mkWord (encode_indirect_str_length len) (not64 L))) = true := by
    rw [wLo_mkWord, Nat.mod_eq_of_lt (encode_indirect_lt _)]
    exact is_indirect_encode' _
  simp only [shiftField]
  rw [if_pos hind]
  congr 1
  rw [wLo_mkWord, wHi_mkWord, Nat.mod_eq_of_lt (encode_indirect_lt _)]
  simp only [mkWord, u32sub, not64]
  omega

/-- Master shift-invariance lemma: transcoding the same (UTF-8 plausible)
element over a buffer extended at the front by a whole number of 8-byte
words appends the same bytes, returning the node shifted by the prefix
length; both runs agree on tapes, unsorted counts and error kinds.  The
bound keeps every absolute position the shifted run stores within
`uint32_t` range. -/
theorem transcode_shift :
    (∀ buf e, goodElem e = true → ∀ (P : List Nat) (b1 : PBuffer),
      b1.data = P ++ buf.data → P.length % 8 = 0 →
      P.length + (stepBuf buf (transcode_node buf e)).data.length ≤ 2 ^ 32 →
      nodeShiftRel P (transcode_node buf e) (transcode_node b1 e)) ∧
    (∀ buf lk u fs, goodFields fs = true → ∀ (P : List Nat) (b1 : PBuffer),
      b1.data = P ++ buf.data → P.length % 8 = 0 →
      P.length + (stepBuf buf (transcode_fields buf lk u fs)).data.length ≤ 2 ^ 32 →
      fieldsShiftRel P (transcode_fields buf lk u fs) (transcode_fields b1 lk u fs)) ∧
    (∀ buf l, goodItems l = true → ∀ (P : List Nat) (b1 : PBuffer),
      b1.data = P ++ buf.data → P.length % 8 = 0 →
      P.length + (stepBuf buf (transcode_items buf l)).data.length ≤ 2 ^ 32 →
      itemsShiftRel P (transcode_items buf l) (transcode_items b1 l)) := by
  refine transcode_node.mutual_induct
    (fun buf e => goodElem e = true → ∀ (P : List Nat) (b1 : PBuffer),
      b1.data = P ++ buf.data → P.length % 8 = 0 →
      P.length + (stepBuf buf (transcode_node buf e)).data.length ≤ 2 ^ 32 →
      nodeShiftRel P (transcode_node buf e) (transcode_node b1 e))
    (fun buf lk u fs => goodFields fs = true → ∀ (P : List Nat) (b1 : PBuffer),
      b1.data = P ++ buf.data → P.length % 8 = 0 →
      P.length + (stepBuf buf (transcode_fields buf lk u fs)).data.length ≤ 2 ^ 32 →
      fieldsShiftRel P (transcode_fields buf lk u fs) (transcode_fields b1 lk u fs))
    (fun buf l => goodItems l = true → ∀ (P : List Nat) (b1 : PBuffer),
      b1.data = P ++ buf.data → P.length % 8 = 0 →
      P.length + (stepBuf buf (transcode_items buf l)).data.length ≤ 2 ^ 32 →
      itemsShiftRel P (transcode_items buf l) (transcode_items b1 l))
    ?_ ?_ ?_ ?_ ?_ ?_ ?_ ?_ ?_ ?_ ?_ ?_ ?_ ?_ ?_ ?_ ?_ ?_ ?_ ?_ ?_ ?_
  · -- array too large: both throw at the entry buffers
    intro buf items hbig hg P b1 hdata hmod hbound
    simp only [transcode_node, if_pos hbig]
    dsimp only [nodeShiftRel]
    exact ⟨rfl, hdata⟩
  · -- array, the item loop throws
    intro buf items hbig er herr ih hg P b1 hdata hmod hbound
    obtain ⟨ek, eb⟩ := er
    have hbound2 : P.length + (stepBuf buf (transcode_items buf items)).data.length ≤ 2 ^ 32 := by
      simp only [transcode_node, if_neg hbig, herr, stepBuf] at hbound ⊢
      exact hbound
    have hrel := ih (by simpa [goodElem] using hg) P b1 hdata hmod hbound2
    cases hit1 : transcode_items b1 items with
    | error er1 =>
      obtain ⟨ek1, eb1⟩ := er1
      rw [herr, hit1] at hrel
      dsimp only [itemsShiftRel] at hrel
      simp only [transcode_node, if_neg hbig, herr, hit1]
      dsimp only [nodeShiftRel]
      exact hrel
    | ok r1 =>
      obtain ⟨c1, ns1, t1⟩ := r1
      rw [herr, hit1] at hrel
      dsimp only [itemsShiftRel] at hrel
  · -- array, the item loop succeeds
    intro buf items hbig buf2 nodes cs hok ih hg P b1 hdata hmod hbound
    obtain ⟨pd, hpd⟩ := place_array_data buf2 nodes (1 + cs)
    have hbound2 : P.length + (stepBuf buf (transcode_items buf items)).data.length ≤ 2 ^ 32 := by
      simp only [transcode_node, if_neg hbig, hok, stepBuf] at hbound
      simp only [hok, stepBuf]
      rw [hpd] at hbound
      simp only [List.length_append] at hbound
      omega
    have hrel := ih (by simpa [goodElem] using hg) P b1 hdata hmod hbound2
    cases hit1 : transcode_items b1 items with
    | error er1 =>
      obtain ⟨ek1, eb1⟩ := er1
      rw [hok, hit1] at hrel
      dsimp only [itemsShiftRel] at hrel
    | ok r1 =>
      obtain ⟨c1, ns1, t1⟩ := r1
      rw [hok, hit1] at hrel
      dsimp only [itemsShiftRel] at hrel
      obtain ⟨hc1, hns1, ht1⟩ := hrel
      simp only [transcode_node, if_neg hbig, hok, hit1]
      dsimp only [nodeShiftRel]
      rw [hns1, ht1]
      have hps := place_array_shift P buf2 c1 hc1 hmod nodes (1 + cs)
      exact ⟨hps.1, hps.2, rfl⟩
  · -- object too large: both throw at the entry buffers
    intro buf fields hbig hg P b1 hdata hmod hbound
    simp only [transcode_node, if_pos hbig]
    dsimp only [nodeShiftRel]
    exact ⟨rfl, hdata⟩
  · -- object, the field loop throws
    intro buf fields hbig er herr ih hg P b1 hdata hmod hbound
    obtain ⟨ek, eb⟩ := er
    have hbound2 :
        P.length + (stepBuf buf (transcode_fields buf [] 0 fields)).data.length ≤ 2 ^ 32 := by
      simp only [transcode_node, if_neg hbig, herr, stepBuf] at hbound ⊢
      exact hbound
    have hrel := ih (by simpa [goodElem] using hg) P b1 hdata hmod hbound2
    cases hit1 : transcode_fields b1 [] 0 fields with
    | error er1 =>
      obtain ⟨ek1, eb1⟩ := er1
      rw [herr, hit1] at hrel
      dsimp only [fieldsShiftRel] at hrel
      simp only [transcode_node, if_neg hbig, herr, hit1]
      dsimp only [nodeShiftRel]
      exact hrel
    | ok r1 =>
      obtain ⟨c1, fs1, u1, t1⟩ := r1
      rw [herr, hit1] at hrel
      dsimp only [fieldsShiftRel] at hrel
  · -- object, the field loop succeeds
    intro buf fields hbig buf2 fs uns cs hok ih hg P b1 hdata hmod hbound
    obtain ⟨pd, hpd⟩ :=
      place_object_data buf2 (if uns ≠ 0 then sortFields buf2 fs else fs) (1 + cs)
    have hbound2 :
        P.length + (stepBuf buf (transcode_fields buf [] 0 fields)).data.length ≤ 2 ^ 32 := by
      simp only [transcode_node, if_neg hbig, hok, stepBuf] at hbound
      simp only [hok, stepBuf]
      rw [hpd] at hbound
      simp only [List.length_append] at hbound
      omega
    have hposP : P.length + buf2.data.length ≤ 2 ^ 32 := by
      simp only [transcode_node, if_neg hbig, hok, stepBuf] at hbound
      rw [hpd] at hbound
      simp only [List.length_append] at hbound
      omega
    have hrel := ih (by simpa [goodElem] using hg) P b1 hdata hmod hbound2
    cases hit1 : transcode_fields b1 [] 0 fields with
    | error er1 =>
      obtain ⟨ek1, eb1⟩ := er1
      rw [hok, hit1] at hrel
      dsimp only [fieldsShiftRel] at hrel
    | ok r1 =>
      obtain ⟨c1, fs1, u1, t1⟩ := r1
      rw [hok, hit1] at hrel
      dsimp only [fieldsShiftRel] at hrel
      obtain ⟨hc1, hfs1, hu1, ht1, hinv⟩ := hrel
      have hsort : (if u1 ≠ 0 then sortFields c1 fs1 else fs1)
          = (if uns ≠ 0 then sortFields buf2 fs else fs).map (shiftField P.length) := by
        rw [hfs1, hu1]
        by_cases huns : uns ≠ 0
        · rw [if_pos huns, if_pos huns]
          refine sortFields_shift P buf2 c1 hc1 fs ?_
          intro g hgm hgi
          have h1 := hinv g hgm hgi
          omega
        · rw [if_neg huns, if_neg huns]
      simp only [transcode_node, if_neg hbig, hok, hit1]
      dsimp only [nodeShiftRel]
      rw [hsort, ht1]
      have hps := place_object_shift P buf2 c1 hc1 hmod
          (if uns ≠ 0 then sortFields buf2 fs else fs) (1 + cs)
      exact ⟨hps.1, hps.2, rfl⟩
  · -- negative signed integer
    intro buf v hv hg P b1 hdata hmod hbound
    simp only [transcode_node, if_pos hv]
    dsimp only [nodeShiftRel]
    exact ⟨hdata,
      (shiftNode_scalar _ _ _ (by norm_num) (by norm_num) (by norm_num)).symm, rfl⟩
  · -- non-negative signed integer
    intro buf v hv hg P b1 hdata hmod hbound
    simp only [transcode_node, if_neg hv]
    dsimp only [nodeShiftRel]
    exact ⟨hdata,
      (shiftNode_scalar _ _ _ (by norm_num) (by norm_num) (by norm_num)).symm, rfl⟩
  · -- unsigned integer
    intro buf v hg P b1 hdata hmod hbound
    simp only [transcode_node]
    dsimp only [nodeShiftRel]
    exact ⟨hdata,
      (shiftNode_scalar _ _ _ (by norm_num) (by norm_num) (by norm_num)).symm, rfl⟩
  · -- double
    intro buf bits hg P b1 hdata hmod hbound
    simp only [transcode_node]
    dsimp only [nodeShiftRel]
    exact ⟨hdata,
      (shiftNode_scalar _ _ _ (by norm_num) (by norm_num) (by norm_num)).symm, rfl⟩
  · -- short string: inline, unaffected by the shift
    intro buf s hs hg P b1 hdata hmod hbound
    simp only [transcode_node, if_pos hs]
    dsimp only [nodeShiftRel]
    have hk := goodStr_spec s (by simpa [goodElem] using hg)
    exact ⟨hdata, (shiftNode_inline P.length s hk.1 hk.2).symm, rfl⟩
  · -- long string: indirect, the stored position shifts by the prefix
    intro buf s hs hg P b1 hdata hmod hbound
    have hpos : buf.data.length + P.length ≤ 2 ^ 32 := by
      simp only [transcode_node, if_neg hs, stepBuf, extend_data] at hbound
      simp only [List.length_append] at hbound
      omega
    simp only [transcode_node, if_neg hs]
    dsimp only [nodeShiftRel]
    refine ⟨?_, ?_, rfl⟩
    · rw [extend_data, extend_data, hdata, List.append_assoc]
    · have hb1len : b1.data.length = P.length + buf.data.length := by
        rw [hdata]; simp
      rw [shiftNode_indirect, indirect_str_node, hb1len]
      congr 1
      simp only [mkWord, u32sub, not64]
      omega
  · -- boolean
    intro buf bo hg P b1 hdata hmod hbound
    simp only [transcode_node]
    dsimp only [nodeShiftRel]
    exact ⟨hdata, (shiftNode_bool P.length bo).symm, rfl⟩
  · -- null
    intro buf hg P b1 hdata hmod hbound
    simp only [transcode_node]
    dsimp only [nodeShiftRel]
    exact ⟨hdata,
      (shiftNode_scalar _ _ _ (by norm_num) (by norm_num) (by norm_num)).symm, rfl⟩
  · -- empty item list
    intro buf hg P b1 hdata hmod hbound
    simp only [transcode_items]
    dsimp only [itemsShiftRel]
    exact ⟨hdata, rfl, rfl⟩
  · -- item list, the head throws
    intro buf e rest er herr ihe hg P b1 hdata hmod hbound
    obtain ⟨ek, eb⟩ := er
    simp only [goodItems, Bool.and_eq_true] at hg
    have hbound2 : P.length + (stepBuf buf (transcode_node buf e)).data.length ≤ 2 ^ 32 := by
      simp only [transcode_items, herr, stepBuf] at hbound ⊢
      exact hbound
    have hrel := ihe hg.1 P b1 hdata hmod hbound2
    cases hn1 : transcode_node b1 e with
    | error er1 =>
      obtain ⟨ek1, eb1⟩ := er1
      rw [herr, hn1] at hrel
      dsimp only [nodeShiftRel] at hrel
      simp only [transcode_items, herr, hn1]
      dsimp only [itemsShiftRel]
      exact hrel
    | ok r1 =>
      obtain ⟨c1, n1, t1⟩ := r1
      rw [herr, hn1] at hrel
      dsimp only [nodeShiftRel] at hrel
  · -- item list, the head succeeds and the tail throws
    intro buf e rest buf2 n t hok er herr ihe ihrest hg P b1 hdata hmod hbound
    obtain ⟨ek, eb⟩ := er
    simp only [goodItems, Bool.and_eq_true] at hg
    obtain ⟨d2, hd2⟩ := transcode_items_extends_err herr
    have hbound2 : P.length + (stepBuf buf (transcode_node buf e)).data.length ≤ 2 ^ 32 := by
      simp only [transcode_items, hok, herr, stepBuf] at hbound
      simp only [hok, stepBuf]
      rw [hd2] at hbound
      simp only [List.length_append] at hbound
      omega
    have hrele := ihe hg.1 P b1 hdata hmod hbound2
    cases hn1 : transcode_node b1 e with
    | error er1 =>
      obtain ⟨ek1, eb1⟩ := er1
      rw [hok, hn1] at hrele
      dsimp only [nodeShiftRel] at hrele
    | ok r1 =>
      obtain ⟨c1, n1, t1⟩ := r1
      rw [hok, hn1] at hrele
      dsimp only [nodeShiftRel] at hrele
      obtain ⟨hc1, hn1s, ht1⟩ := hrele
      have hbound3 :
          P.length + (stepBuf buf2 (transcode_items buf2 rest)).data.length ≤ 2 ^ 32 := by
        simp only [transcode_items, hok, herr, stepBuf] at hbound
        simp only [herr, stepBuf]
        exact hbound
      have hrelr := ihrest hg.2 P c1 hc1 hmod hbound3
      cases hr1 : transcode_items c1 rest with
      | error er2 =>
        obtain ⟨ek2, eb2⟩ := er2
        rw [herr, hr1] at hrelr
        dsimp only [itemsShiftRel] at hrelr
        simp only [transcode_items, hok, hn1, herr, hr1]
        dsimp only [itemsShiftRel]
        exact hrelr
      | ok r2 =>
        obtain ⟨c2, ns2, t2⟩ := r2
        rw [herr, hr1] at hrelr
        dsimp only [itemsShiftRel] at hrelr
  · -- item list, head and tail both succeed
    intro buf e rest buf2 n t hok buf3 ns2 ts2 hok2 ihe ihrest hg P b1 hdata hmod hbound
    simp only [goodItems, Bool.and_eq_true] at hg
    obtain ⟨d2, hd2⟩ := transcode_items_extends hok2
    have hbound2 : P.length + (stepBuf buf (transcode_node buf e)).data.length ≤ 2 ^ 32 := by
      simp only [transcode_items, hok, hok2, stepBuf] at hbound
      simp only [hok, stepBuf]
      rw [hd2] at hbound
      simp only [List.length_append] at hbound
      omega
    have hrele := ihe hg.1 P b1 hdata hmod hbound2
    cases hn1 : transcode_node b1 e with
    | error er1 =>
      obtain ⟨ek1, eb1⟩ := er1
      rw [hok, hn1] at hrele
      dsimp only [nodeShiftRel] at hrele
    | ok r1 =>
      obtain ⟨c1, n1, t1⟩ := r1
      rw [hok, hn1] at hrele
      dsimp only [nodeShiftRel] at hrele
      obtain ⟨hc1, hn1s, ht1⟩ := hrele
      have hbound3 :
          P.length + (stepBuf buf2 (transcode_items buf2 rest)).data.length ≤ 2 ^ 32 := by
        simp only [transcode_items, hok, hok2, stepBuf] at hbound
        simp only [hok2, stepBuf]
        exact hbound
      have hrelr := ihrest hg.2 P c1 hc1 hmod hbound3
      cases hr1 : transcode_items c1 rest with
      | error er2 =>
        obtain ⟨ek2, eb2⟩ := er2
        rw [hok2, hr1] at hrelr
        dsimp only [itemsShiftRel] at hrelr
      | ok r2 =>
        obtain ⟨c2, ns3, t3⟩ := r2
        rw [hok2, hr1] at hrelr
        dsimp only [itemsShiftRel] at hrelr
        obtain ⟨hc2, hns3, ht3⟩ := hrelr
        simp only [transcode_items, hok, hn1, hok2, hr1]
        dsimp only [itemsShiftRel]
        refine ⟨hc2, ?_, by omega⟩
        rw [hns3, hn1s, List.map_cons]
  · -- empty field list
    intro buf lk u hg P b1 hdata hmod hbound
    simp only [transcode_fields]
    dsimp only [fieldsShiftRel]
    exact ⟨hdata, rfl, rfl, rfl, by simp⟩
  · -- field list, the value throws
    intro buf lk u key v rest bp er herr ih hg P b1 hdata hmod hbound
    obtain ⟨ek, eb⟩ := er
    simp only [goodFields, Bool.and_eq_true] at hg
    unfold_let bp at herr ih
    by_cases hk : key.length < 9
    · simp only [hk, ite_true] at herr ih
      have hbound2 : P.length + (stepBuf buf (transcode_node buf v)).data.length ≤ 2 ^ 32 := by
        simp only [transcode_fields, hk, ite_true, herr, stepBuf] at hbound ⊢
        exact hbound
      have hrel := ih hg.1.2 P b1 hdata hmod hbound2
      cases hn1 : transcode_node b1 v with
      | error er1 =>
        obtain ⟨ek1, eb1⟩ := er1
        rw [herr, hn1] at hrel
        dsimp only [nodeShiftRel] at hrel
        simp only [transcode_fields, hk, ite_true, herr, hn1]
        dsimp only [fieldsShiftRel]
        exact hrel
      | ok r1 =>
        obtain ⟨c1, n1, t1⟩ := r1
        rw [herr, hn1] at hrel
        dsimp only [nodeShiftRel] at hrel
    · simp only [hk, ite_false] at herr ih
      have hext1 : (b1.extend key).data = P ++ (buf.extend key).data := by
        rw [extend_data, extend_data, hdata, List.append_assoc]
      have hbound2 : P.length
          + (stepBuf (buf.extend key) (transcode_node (buf.extend key) v)).data.length
            ≤ 2 ^ 32 := by
        simp only [transcode_fields, hk, ite_true, ite_false, herr, stepBuf] at hbound ⊢
        exact hbound
      have hrel := ih hg.1.2 P (b1.extend key) hext1 hmod hbound2
      cases hn1 : transcode_node (b1.extend key) v with
      | error er1 =>
        obtain ⟨ek1, eb1⟩ := er1
        rw [herr, hn1] at hrel
        dsimp only [nodeShiftRel] at hrel
        simp only [transcode_fields, hk, ite_true, ite_false, herr, hn1]
        dsimp only [fieldsShiftRel]
        exact hrel
      | ok r1 =>
        obtain ⟨c1, n1, t1⟩ := r1
        rw [herr, hn1] at hrel
        dsimp only [nodeShiftRel] at hrel
  · -- field list, the value succeeds and the tail throws
    intro buf lk u key v rest u2 bp buf2 n t hok er herr ihv ihrest hg P b1 hdata hmod hbound
    obtain ⟨ek, eb⟩ := er
    simp only [goodFields, Bool.and_eq_true] at hg
    unfold_let u2 bp at hok herr ihv ihrest
    obtain ⟨d2, hd2⟩ := transcode_fields_extends_err herr
    by_cases hk : key.length < 9
    · simp only [hk, ite_true] at hok ihv
      have hbound2 : P.length + (stepBuf buf (transcode_node buf v)).data.length ≤ 2 ^ 32 := by
        simp only [transcode_fields, hk, ite_true, hok, herr, stepBuf] at hbound
        simp only [hok, stepBuf]
        rw [hd2] at hbound
        simp only [List.length_append] at hbound
        omega
      have hrelv := ihv hg.1.2 P b1 hdata hmod hbound2
      cases hn1 : transcode_node b1 v with
      | error er1 =>
        obtain ⟨ek1, eb1⟩ := er1
        rw [hok, hn1] at hrelv
        dsimp only [nodeShiftRel] at hrelv
      | ok r1 =>
        obtain ⟨c1, n1, t1⟩ := r1
        rw [hok, hn1] at hrelv
        dsimp only [nodeShiftRel] at hrelv
        obtain ⟨hc1, hn1s, ht1⟩ := hrelv
        have hbound3 : P.length
            + (stepBuf buf2 (transcode_fields buf2 key
                (u + if lexLe key lk then 1 else 0) rest)).data.length ≤ 2 ^ 32 := by
          simp only [transcode_fields, hk, ite_true, hok, herr, stepBuf] at hbound
          simp only [herr, stepBuf]
          exact hbound
        have hrelr := ihrest hg.2 P c1 hc1 hmod hbound3
        cases hr1 : transcode_fields c1 key (u + if lexLe key lk then 1 else 0) rest with
        | error er2 =>
          obtain ⟨ek2, eb2⟩ := er2
          rw [herr, hr1] at hrelr
          dsimp only [fieldsShiftRel] at hrelr
          simp only [transcode_fields, hk, ite_true, hok, hn1, herr, hr1]
          dsimp only [fieldsShiftRel]
          exact hrelr
        | ok r2 =>
          obtain ⟨c2, fs2, u3, t2⟩ := r2
          rw [herr, hr1] at hrelr
          dsimp only [fieldsShiftRel] at hrelr
    · simp only [hk, ite_false] at hok ihv
      have hext1 : (b1.extend key).data = P ++ (buf.extend key).data := by
        rw [extend_data, extend_data, hdata, List.append_assoc]
      have hbound2 : P.length
          + (stepBuf (buf.extend key) (transcode_node (buf.extend key) v)).data.length
            ≤ 2 ^ 32 := by
        simp only [transcode_fields, hk, ite_true, ite_false, hok, herr, stepBuf] at hbound
        simp only [hok, stepBuf]
        rw [hd2] at hbound
        simp only [List.length_append] at hbound
        omega
      have hrelv := ihv hg.1.2 P (b1.extend key) hext1 hmod hbound2
      cases hn1 : transcode_node (b1.extend key) v with
      | error er1 =>
        obtain ⟨ek1, eb1⟩ := er1
        rw [hok, hn1] at hrelv
        dsimp only [nodeShiftRel] at hrelv
      | ok r1 =>
        obtain ⟨c1, n1, t1⟩ := r1
        rw [hok, hn1] at hrelv
        dsimp only [nodeShiftRel] at hrelv
        obtain ⟨hc1, hn1s, ht1⟩ := hrelv
        have hbound3 : P.length
            + (stepBuf buf2 (transcode_fields buf2 key
                (u + if lexLe key lk then 1 else 0) rest)).data.length ≤ 2 ^ 32 := by
          simp only [transcode_fields, hk, ite_true, ite_false, hok, herr, stepBuf] at hbound
          simp only [herr, stepBuf]
          exact hbound
        have hrelr := ihrest hg.2 P c1 hc1 hmod hbound3
        cases hr1 : transcode_fields c1 key (u + if lexLe key lk then 1 else 0) rest with
        | error er2 =>
          obtain ⟨ek2, eb2⟩ := er2
          rw [herr, hr1] at hrelr
          dsimp only [fieldsShiftRel] at hrelr
          simp only [transcode_fields, hk, ite_true, ite_false, hok, hn1, herr, hr1]
          dsimp only [fieldsShiftRel]
          exact hrelr
        | ok r2 =>
          obtain ⟨c2, fs2, u3, t2⟩ := r2
          rw [herr, hr1] at hrelr
          dsimp only [fieldsShiftRel] at hrelr
  · -- field list, value and tail both succeed
    intro buf lk u key v rest u2 bp buf2 n t hok buf3 fs uns ts hok2 ihv ihrest hg
      P b1 hdata hmod hbound
    simp only [goodFields, Bool.and_eq_true] at hg
    unfold_let u2 bp at hok hok2 ihv ihrest
    obtain ⟨d2, hd2⟩ := transcode_fields_extends hok2
    have hgk := goodStr_spec key hg.1.1
    by_cases hk : key.length < 9
    · simp only [hk, ite_true] at hok ihv
      have hbound2 : P.length + (stepBuf buf (transcode_node buf v)).data.length ≤ 2 ^ 32 := by
        simp only [transcode_fields, hk, ite_true, hok, hok2, stepBuf] at hbound
        simp only [hok, stepBuf]
        rw [hd2] at hbound
        simp only [List.length_append] at hbound
        omega
      have hrelv := ihv hg.1.2 P b1 hdata hmod hbound2
      cases hn1 : transcode_node b1 v with
      | error er1 =>
        obtain ⟨ek1, eb1⟩ := er1
        rw [hok, hn1] at hrelv
        dsimp only [nodeShiftRel] at hrelv
      | ok r1 =>
        obtain ⟨c1, n1, t1⟩ := r1
        rw [hok, hn1] at hrelv
        dsimp only [nodeShiftRel] at hrelv
        obtain ⟨hc1, hn1s, ht1⟩ := hrelv
        have hbound3 : P.length
            + (stepBuf buf2 (transcode_fields buf2 key
                (u + if lexLe key lk then 1 else 0) rest)).data.length ≤ 2 ^ 32 := by
          simp only [transcode_fields, hk, ite_true, hok, hok2, stepBuf] at hbound
          simp only [hok2, stepBuf]
          exact hbound
        have hrelr := ihrest hg.2 P c1 hc1 hmod hbound3
        cases hr1 : transcode_fields c1 key (u + if lexLe key lk then 1 else 0) rest with
        | error er2 =>
          obtain ⟨ek2, eb2⟩ := er2
          rw [hok2, hr1] at hrelr
          dsimp only [fieldsShiftRel] at hrelr
        | ok r2 =>
          obtain ⟨c2, fs2, u3, t2⟩ := r2
          rw [hok2, hr1] at hrelr
          dsimp only [fieldsShiftRel] at hrelr
          obtain ⟨hc2, hfs2, hu3, ht2, hinv⟩ := hrelr
          simp only [transcode_fields, hk, ite_true, hok, hn1, hok2, hr1]
          dsimp only [fieldsShiftRel]
          refine ⟨hc2, ?_, hu3, by omega, ?_⟩
          · rw [hfs2, hn1s, List.map_cons, shiftField_inline P.length key n hgk.1 hgk.2]
          · intro g hgm hgi
            rcases List.mem_cons.mp hgm with hgm | hgm
            · subst hgm
              exact absurd hgi (by simp [is_indirect_inlineWord key hgk.1 hgk.2])
            · exact hinv g hgm hgi
    · simp only [hk, ite_false] at hok ihv
      have hext1 : (b1.extend key).data = P ++ (buf.extend key).data := by
        rw [extend_data, extend_data, hdata, List.append_assoc]
      obtain ⟨dv, hdv⟩ := transcode_node_extends hok
      have hposP : P.length + buf.data.length + key.length ≤ 2 ^ 32 := by
        simp only [transcode_fields, hk, ite_true, ite_false, hok, hok2, stepBuf] at hbound
        rw [hd2, hdv, extend_data] at hbound
        simp only [List.length_append] at hbound
        omega
      have hbound2 : P.length
          + (stepBuf (buf.extend key) (transcode_node (buf.extend key) v)).data.length
            ≤ 2 ^ 32 := by
        simp only [transcode_fields, hk, ite_true, ite_false, hok, hok2, stepBuf] at hbound
        simp only [hok, stepBuf]
        rw [hd2] at hbound
        simp only [List.length_append] at hbound
        omega
      have hrelv := ihv hg.1.2 P (b1.extend key) hext1 hmod hbound2
      cases hn1 : transcode_node (b1.extend key) v with
      | error er1 =>
        obtain ⟨ek1, eb1⟩ := er1
        rw [hok, hn1] at hrelv
        dsimp only [nodeShiftRel] at hrelv
      | ok r1 =>
        obtain ⟨c1, n1, t1⟩ := r1
        rw [hok, hn1] at hrelv
        dsimp only [nodeShiftRel] at hrelv
        obtain ⟨hc1, hn1s, ht1⟩ := hrelv
        have hbound3 : P.length
            + (stepBuf buf2 (transcode_fields buf2 key
                (u + if lexLe key lk then 1 else 0) rest)).data.length ≤ 2 ^ 32 := by
          simp only [transcode_fields, hk, ite_true, ite_false, hok, hok2, stepBuf] at hbound
          simp only [hok2, stepBuf]
          exact hbound
        have hrelr := ihrest hg.2 P c1 hc1 hmod hbound3
        cases hr1 : transcode_fields c1 key (u + if lexLe key lk then 1 else 0) rest with
        | error er2 =>
          obtain ⟨ek2, eb2⟩ := er2
          rw [hok2, hr1] at hrelr
          dsimp only [fieldsShiftRel] at hrelr
        | ok r2 =>
          obtain ⟨c2, fs2, u3, t2⟩ := r2
          rw [hok2, hr1] at hrelr
          dsimp only [fieldsShiftRel] at hrelr
          obtain ⟨hc2, hfs2, hu3, ht2, hinv⟩ := hrelr
          simp only [transcode_fields, hk, ite_true, ite_false, hok, hn1, hok2, hr1]
          dsimp only [fieldsShiftRel]
          have hb1len : b1.data.length = P.length + buf.data.length := by
            rw [hdata]; simp
          refine ⟨hc2, ?_, hu3, by omega, ?_⟩
          · rw [hfs2, hn1s, List.map_cons,
              shiftField_indirect_key P.length buf.data.length key.length n (by omega),
              hb1len]
          · intro g hgm hgi
            rcases List.mem_cons.mp hgm with hgm | hgm
            · subst hgm
              show not32 (wHi (mkWord (encode_indirect_str_length key.length)
                  (not64 buf.data.length))) < buf3.data.length
              rw [wHi_mkWord]
              have hnn : not32 (not64 buf.data.length % 2 ^ 32)
                  = buf.data.length % 2 ^ 32 := by
                simp only [not32, not64]
                omega
              rw [hnn, hd2, hdv, extend_data]
              simp only [List.length_append]
              have := Nat.mod_le buf.data.length (2 ^ 32)
              omega
            · exact hinv g hgm hgi

theorem nodesBytes_length (l : List pnode) : (nodesBytes l).length = 16 * l.length := by
  induction l with
  | nil => rfl
  | cons n t ih =>
    have hn : (pnodeBytes n).length = 16 := rfl
    simp only [nodesBytes, List.length_append, List.length_cons, ih, hn]
    ring

theorem resolveNodes_length : ∀ (l : List pnode) (off : Nat),
    (resolveNodes off l).length = l.length := by
  intro l
  induction l with
  | nil => intro off; rfl
  | cons n t ih =>
    intro off
    simp only [resolveNodes, List.length_cons, ih]

/-- `place_array` pads to an 8-byte boundary and then appends whole
16-byte nodes, so its output length is always 8-byte aligned. -/
theorem place_array_aligned (buf : PBuffer) (d : List pnode) (t : Nat) :
    (place_array buf d t).1.data.length % 8 = 0 := by
  simp only [place_array, extend_data, pad_data]
  simp only [List.length_append, List.length_replicate, nodesBytes_length,
    resolveNodes_length]
  omega

/-- Rewriting an 8-byte header in place keeps the buffer length. -/
theorem length_header_rewrite (X : List Nat) (h start : Nat)
    (h8 : 8 ≤ start) (hle : start ≤ X.length) :
    (X.take (start - 8) ++ wordBytes h ++ X.drop start).length = X.length := by
  have hw : (wordBytes h).length = 8 := rfl
  simp only [List.length_append, List.length_take, List.length_drop, hw]
  omega

theorem getD_ten_lt {l : List Nat} {k : Nat} (h : l.getD k 0 = 10) : k < l.length := by
  by_contra hc
  rw [List.getD_eq_default l 0 (by omega)] at h
  exact absurd h (by norm_num)

/-- The newline check is the only use `runDoc` makes of the input bytes,
and a successful check reads inside the input; so a successful document
run is unchanged when more input is appended after the bytes it covers. -/
theorem runDoc_input_agree (ia ib : List Nat) (buf : PBuffer) (d : DocToken)
    (out : PBuffer) (hok : runDoc ia buf d = .ok out) :
    runDoc (ia ++ ib) buf d = .ok out := by
  cases hn : transcode_node (buf.extend (wordBytes (mkWord 0 0))) d.elem with
  | error er =>
    obtain ⟨ek0, b0⟩ := er
    rw [runDoc] at hok
    simp only [hn] at hok
    exact absurd hok (by simp)
  | ok r =>
    obtain ⟨buf2, root, tl⟩ := r
    by_cases hnl : ia.getD (d.endIndex - 1) 0 ≠ 10
    · rw [runDoc] at hok
      simp only [hn, if_pos hnl] at hok
      exact absurd hok (by simp)
    · have h10 : ia.getD (d.endIndex - 1) 0 = 10 := by
        by_contra hc
        exact hnl hc
      have hrange : d.endIndex - 1 < ia.length := getD_ten_lt h10
      have h10c : (ia ++ ib).getD (d.endIndex - 1) 0 = 10 := by
        rw [List.getD_append ia ib 0 _ hrange]
        exact h10
      rw [runDoc] at hok ⊢
      simp only [hn, if_neg hnl] at hok
      simp only [hn, if_neg (by rw [h10c]; simp : ¬ (ia ++ ib).getD (d.endIndex - 1) 0 ≠ 10)]
      exact hok

/-- Every record `runDoc` emits ends at the `place_array` of the root,
which pads to 8 bytes and appends a 16-byte node, so a successful run
leaves an 8-byte aligned buffer. -/
theorem runDoc_aligned (input : List Nat) (buf : PBuffer) (d : DocToken)
    (out : PBuffer) (hok : runDoc input buf d = .ok out) :
    out.data.length % 8 = 0 := by
  cases hn : transcode_node (buf.extend (wordBytes (mkWord 0 0))) d.elem with
  | error er =>
    obtain ⟨ek0, b0⟩ := er
    rw [runDoc] at hok
    simp only [hn] at hok
    exact absurd hok (by simp)
  | ok r =>
    obtain ⟨buf2, root, tl⟩ := r
    by_cases hnl : input.getD (d.endIndex - 1) 0 ≠ 10
    · rw [runDoc] at hok
      simp only [hn, if_pos hnl] at hok
      exact absurd hok (by simp)
    · rw [runDoc] at hok
      simp only [hn, if_neg hnl] at hok
      obtain h2 := by simpa using hok
      have hstart : (buf.extend (wordBytes (mkWord 0 0))).data.length
          = buf.data.length + 8 := by
        simp [extend_data, wordBytes]
      have h5 : (buf.extend (wordBytes (mkWord 0 0))).data.length
          ≤ (place_array buf2 [root] 0).1.data.length := by
        obtain ⟨t1, ht1⟩ :=
          (transcode_buffer_facts.1 (buf.extend (wordBytes (mkWord 0 0))) d.elem).1
        rw [hn] at ht1
        simp only [stepBuf] at ht1
        obtain ⟨t2, ht2⟩ := place_array_data buf2 [root] 0
        rw [ht2, ht1]
        simp
      subst h2
      have hw : (wordBytes (mkWord d.endIndex
          ((place_array buf2 [root] 0).1.data.length
            - (buf.extend (wordBytes (mkWord 0 0))).data.length))).length = 8 := rfl
      have hal := place_array_aligned buf2 [root] 0
      simp only [List.length_append, List.length_take, List.length_drop, hw]
      omega

/-- Shift-invariance of one whole document run: a successful standalone
run over input `ib` re-runs over `ia ++ ib` (tokenizer index moved past
`ia`) on a buffer carrying the byte prefix `P`, appending the same record
bytes except that the header word's `end_input_offset` half holds the
shifted index. -/
theorem runDoc_shift (ia ib : List Nat) (d : DocToken) (buf b1 out : PBuffer)
    (P : List Nat)
    (hg : goodElem d.elem = true) (hk : 1 ≤ d.endIndex)
    (hdata : b1.data = P ++ buf.data) (hmod : P.length % 8 = 0)
    (hok : runDoc ib buf d = .ok out)
    (hbound : P.length + out.data.length ≤ 2 ^ 32) :
    ∃ bl rest out1,
      out.data = buf.data ++ wordBytes (mkWord d.endIndex bl) ++ rest ∧
      runDoc (ia ++ ib) b1 ⟨d.elem, ia.length + d.endIndex⟩ = .ok out1 ∧
      out1.data = (P ++ buf.data)
        ++ wordBytes (mkWord (ia.length + d.endIndex) bl) ++ rest := by
  have hdatah : (b1.extend (wordBytes (mkWord 0 0))).data
      = P ++ (buf.extend (wordBytes (mkWord 0 0))).data := by
    rw [extend_data, extend_data, hdata, List.append_assoc]
  cases hn : transcode_node (buf.extend (wordBytes (mkWord 0 0))) d.elem with
  | error er =>
    obtain ⟨ek0, b0⟩ := er
    rw [runDoc] at hok
    simp only [hn] at hok
    exact absurd hok (by simp)
  | ok r =>
    obtain ⟨buf2, root, tl⟩ := r
    by_cases hnl : ib.getD (d.endIndex - 1) 0 ≠ 10
    · rw [runDoc] at hok
      simp only [hn, if_pos hnl] at hok
      exact absurd hok (by simp)
    · rw [runDoc] at hok
      simp only [hn, if_neg hnl] at hok
      obtain h2 := by simpa using hok
      subst h2
      have hstart : (buf.extend (wordBytes (mkWord 0 0))).data.length
          = buf.data.length + 8 := by
        simp [extend_data, wordBytes]
      obtain ⟨t1x, ht1x⟩ :=
        (transcode_buffer_facts.1 (buf.extend (wordBytes (mkWord 0 0))) d.elem).1
      rw [hn] at ht1x
      simp only [stepBuf] at ht1x
      obtain ⟨t2x, ht2x⟩ := place_array_data buf2 [root] 0
      have h5 : (buf.extend (wordBytes (mkWord 0 0))).data.length
          ≤ (place_array buf2 [root] 0).1.data.length := by
        rw [ht2x, ht1x]
        simp
      have hw8 : (wordBytes (mkWord d.endIndex
          ((place_array buf2 [root] 0).1.data.length
            - (buf.extend (wordBytes (mkWord 0 0))).data.length))).length = 8 := rfl
      have hreclen : P.length + (place_array buf2 [root] 0).1.data.length ≤ 2 ^ 32 := by
        simp only [List.length_append, List.length_take, List.length_drop, hw8] at hbound
        omega
      have hbound2 : P.length + (stepBuf (buf.extend (wordBytes (mkWord 0 0)))
          (transcode_node (buf.extend (wordBytes (mkWord 0 0))) d.elem)).data.length
            ≤ 2 ^ 32 := by
        rw [hn]
        simp only [stepBuf]
        rw [ht2x] at hreclen
        simp only [List.length_append] at hreclen
        omega
      have hrel := transcode_shift.1 (buf.extend (wordBytes (mkWord 0 0))) d.elem hg P
          (b1.extend (wordBytes (mkWord 0 0))) hdatah hmod hbound2
      cases hn1 : transcode_node (b1.extend (wordBytes (mkWord 0 0))) d.elem with
      | error er1 =>
        obtain ⟨ek1, eb1⟩ := er1
        rw [hn, hn1] at hrel
        dsimp only [nodeShiftRel] at hrel
      | ok r1 =>
        obtain ⟨c1, root1, t1⟩ := r1
        rw [hn, hn1] at hrel
        dsimp only [nodeShiftRel] at hrel
        obtain ⟨hc1, hroot1, ht1⟩ := hrel
        have hmap : [root1] = [root].map (shiftNode P.length) := by
          rw [hroot1]
          rfl
        have hps := place_array_shift P buf2 c1 hc1 hmod [root] 0
        rw [← hmap] at hps
        have h10 : ib.getD (d.endIndex - 1) 0 = 10 := by
          by_contra hc
          exact hnl hc
        have hrange : d.endIndex - 1 < ib.length := getD_ten_lt h10
        have h10c : (ia ++ ib).getD (ia.length + d.endIndex - 1) 0 = 10 := by
          have hidx : ia.length + d.endIndex - 1 = ia.length + (d.endIndex - 1) := by
            omega
          rw [hidx, List.getD_append_right ia ib 0 _ (by omega)]
          have hidx2 : ia.length + (d.endIndex - 1) - ia.length = d.endIndex - 1 := by
            omega
          rw [hidx2]
          exact h10
        have hpa : (place_array buf2 [root] 0).1.data
            = buf.data ++ (wordBytes (mkWord 0 0) ++ (t1x ++ t2x)) := by
          rw [ht2x, ht1x, extend_data]
          simp only [List.append_assoc]
        have htake : (place_array buf2 [root] 0).1.data.take
            ((buf.extend (wordBytes (mkWord 0 0))).data.length - 8) = buf.data := by
          rw [hstart]
          have he : buf.data.length + 8 - 8 = buf.data.length := by omega
          rw [he, hpa]
          exact List.take_left buf.data _
        have hstart1 : (b1.extend (wordBytes (mkWord 0 0))).data.length
            = P.length + buf.data.length + 8 := by
          rw [hdatah]
          simp only [List.length_append, hstart]
          omega
        have hc3 : (place_array c1 [root1] 0).1.data
            = P ++ (place_array buf2 [root] 0).1.data := hps.1
        refine ⟨(place_array buf2 [root] 0).1.data.length
              - (buf.extend (wordBytes (mkWord 0 0))).data.length,
            (place_array buf2 [root] 0).1.data.drop
              (buf.extend (wordBytes (mkWord 0 0))).data.length,
            { (place_array c1 [root1] 0).1 with
              data := (place_array c1 [root1] 0).1.data.take
                  ((b1.extend (wordBytes (mkWord 0 0))).data.length - 8)
                ++ wordBytes (mkWord (ia.length + d.endIndex)
                    ((place_array c1 [root1] 0).1.data.length
                      - (b1.extend (wordBytes (mkWord 0 0))).data.length))
                ++ (place_array c1 [root1] 0).1.data.drop
                    (b1.extend (wordBytes (mkWord 0 0))).data.length },
            ?_, ?_, ?_⟩
        · dsimp only
          rw [htake, List.append_assoc]
        · simp only [runDoc, hn1]
          rw [if_neg (by
            simp only [h10c]
            simp)]
        · dsimp only
          have htake1 : (place_array c1 [root1] 0).1.data.take
              ((b1.extend (wordBytes (mkWord 0 0))).data.length - 8)
                = P ++ buf.data := by
            rw [hstart1]
            have he : P.length + buf.data.length + 8 - 8
                = (P ++ buf.data).length := by
              simp
            rw [he, hc3, hpa, ← List.append_assoc]
            exact List.take_left (P ++ buf.data) _
          have hdrop1 : (place_array c1 [root1] 0).1.data.drop
              (b1.extend (wordBytes (mkWord 0 0))).data.length
                = (place_array buf2 [root] 0).1.data.drop
                    (buf.extend (wordBytes (mkWord 0 0))).data.length := by
            rw [hc3, hstart1, hstart]
            have he : P.length + buf.data.length + 8
                = P.length + (buf.data.length + 8) := by omega
            rw [he, drop_append_left]
          have hbl : (place_array c1 [root1] 0).1.data.length
              - (b1.extend (wordBytes (mkWord 0 0))).data.length
                = (place_array buf2 [root] 0).1.data.length
                  - (buf.extend (wordBytes (mkWord 0 0))).data.length := by
            rw [hc3, hstart1, hstart]
            simp only [List.length_append]
            omega
          rw [htake1, hdrop1, hbl]

/-- C7: the claimed byte-for-byte identity
`transcode(concat(a, b)) = concat(transcode(a), transcode(b))` fails only
in each header word: transcoding the concatenation emits the first
document's record unchanged followed by the second document's record with
the same body but with the header's `end_input_offset` half advanced past
the first input (`current_index()` is absolute in the combined input). -/
theorem c7_amended (ia ib : List Nat) (dA dB : DocToken) (A B : PBuffer)
    (hA : transcode ia [dA] 0 empty0 = .ok A)
    (hB : transcode ib [dB] 0 empty0 = .ok B)
    (hgB : goodElem dB.elem = true) (hkB : 1 ≤ dB.endIndex)
    (hbound : A.data.length + B.data.length ≤ 2 ^ 32) :
    ∃ bl rest C,
      B.data = wordBytes (mkWord dB.endIndex bl) ++ rest ∧
      transcode (ia ++ ib) [dA, ⟨dB.elem, ia.length + dB.endIndex⟩] 0 empty0 = .ok C ∧
      C.data = A.data ++ wordBytes (mkWord (ia.length + dB.endIndex) bl) ++ rest := by
  cases hrA : runDocs ia empty0 [dA] with
  | error e =>
    simp only [transcode, hrA] at hA
    exact absurd hA (by simp)
  | ok A0 =>
    simp only [transcode, hrA] at hA
    rw [if_neg (by simp)] at hA
    obtain hAeq := by simpa using hA
    cases hdA : runDoc ia empty0 dA with
    | error e2 =>
      simp only [runDocs, hdA] at hrA
      exact absurd hrA (by simp)
    | ok bufA =>
      simp only [runDocs, hdA] at hrA
      obtain hA0 := by simpa using hrA
      cases hrB : runDocs ib empty0 [dB] with
      | error e =>
        simp only [transcode, hrB] at hB
        exact absurd hB (by simp)
      | ok B0 =>
        simp only [transcode, hrB] at hB
        rw [if_neg (by simp)] at hB
        obtain hBeq := by simpa using hB
        cases hdB : runDoc ib empty0 dB with
        | error e2 =>
          simp only [runDocs, hdB] at hrB
          exact absurd hrB (by simp)
        | ok bufB =>
          simp only [runDocs, hdB] at hrB
          obtain hB0 := by simpa using hrB
          have hAdata : A.data = bufA.data := by
            rw [← hAeq, ← hA0]
          have hBdata : B.data = bufB.data := by
            rw [← hBeq, ← hB0]
          have hal : bufA.data.length % 8 = 0 :=
            runDoc_aligned ia empty0 dA bufA hdA
          have hdA2 : runDoc (ia ++ ib) empty0 dA = .ok bufA :=
            runDoc_input_agree ia ib empty0 dA bufA hdA
          obtain ⟨bl, rest, out1, hBrec, hrun1, hout1⟩ :=
            runDoc_shift ia ib dB empty0 bufA bufB bufA.data hgB hkB
              (by simp [empty0]) hal hdB
              (by rw [← hAdata, ← hBdata]; exact hbound)
          refine ⟨bl, rest, { out1 with ffiLen := out1.data.length }, ?_, ?_, ?_⟩
          · rw [hBdata, hBrec]
            simp [empty0]
          · have hdocs : runDocs (ia ++ ib) empty0
                [dA, ⟨dB.elem, ia.length + dB.endIndex⟩] = .ok out1 := by
              simp only [runDocs, hdA2, hrun1]
            simp only [transcode, hdocs]
            rw [if_neg (by simp)]
          · dsimp only
            rw [hout1, hAdata]
            simp [empty0]

/-- C7 counterexample: two newline-terminated documents (`"n\n"` tokenized
as a null root ending at index 2 and `"t\n"` as a true root ending at
index 2, hence at index 4 in the concatenation).  Transcoding the
concatenation does not equal the concatenation of the two standalone
outputs: the second record's header stores `end_input_offset = 4`, not 2. -/
theorem c7_counterexample :
    resultData (transcode ([110, 10] ++ [116, 10])
        [⟨.null, 2⟩, ⟨.bool true, 4⟩] 0 empty0)
      ≠ resultData (transcode [110, 10] [⟨.null, 2⟩] 0 empty0)
        ++ resultData (transcode [116, 10] [⟨.bool true, 2⟩] 0 empty0) := by
  decide

theorem c7_witness :
    ∃ bl rest C,
      ([2, 0, 0, 0, 16, 0, 0, 0, 1, 1, 0, 0, 0, 0, 0, 0,
        0, 0, 0, 0, 0, 0, 0, 0] : List Nat)
        = wordBytes (mkWord 2 bl) ++ rest ∧
      transcode ([110, 10] ++ [116, 10])
          [⟨.null, 2⟩, ⟨.bool true, 4⟩] 0 empty0 = .ok C ∧
      C.data = ([2, 0, 0, 0, 16, 0, 0, 0, 5, 0, 0, 0, 0, 0, 0, 0,
          0, 0, 0, 0, 0, 0, 0, 0] : List Nat)
        ++ wordBytes (mkWord 4 bl) ++ rest :=
  c7_amended [110, 10] [116, 10] ⟨.null, 2⟩ ⟨.bool true, 2⟩
    ⟨[2, 0, 0, 0, 16, 0, 0, 0, 5, 0, 0, 0, 0, 0, 0, 0,
      0, 0, 0, 0, 0, 0, 0, 0], 24, 24⟩
    ⟨[2, 0, 0, 0, 16, 0, 0, 0, 1, 1, 0, 0, 0, 0, 0, 0,
      0, 0, 0, 0, 0, 0, 0, 0], 24, 24⟩
    rfl rfl rfl (by norm_num) (by decide)
